import Mathlib

/-!
Verification of the skeleton-font pipeline (Zhang-Suen thinning, skeleton
tracing, path smoothing, dot/dash marker placement).

The Python source is shallowly embedded:
* a binary image is a `Grid := List (List Nat)` (row-major, `1` = foreground),
  matching the list-of-lists representation of `skeleton_utils.py`;
* indices are `Int` so that out-of-range neighbour offsets behave like the
  Python bound checks (negative index means out of range, value `0`);
* the `while` loops are embedded with explicit fuel; every theorem about a
  loop is either invariant-style (true for any fuel) or comes with a fuel
  sufficiency lemma;
* coordinates produced by smoothing and marker placement are rationals
  (the Python floats are IEEE doubles; the arithmetic performed - sums,
  products, division by 4 - is modelled exactly over `Rat`), and the one
  genuinely irrational quantity, the Euclidean segment length
  `math.hypot`, is modelled as an explicit length-oracle parameter `dist`
  so that every definition stays executable;
* Python `set` iteration order is unspecified; the tracer's
  endpoint/junction sets are modelled as lists in first-insertion
  (row-major) order.  All theorems proved about the tracer are insensitive
  to that order.
-/

namespace FontSkeleton

/-- A raster image: list of rows, each row a list of pixel values. -/
abbrev Grid := List (List Nat)

/-- Number of rows, `len(image)`. -/
def rowsOf (g : Grid) : Nat := g.length

/-- Number of columns, `len(image[0])` (0 for an empty image; the one
Python call site that would raise on an empty list is modelled with
`Option` at that call site). -/
def colsOf (g : Grid) : Nat := (g.headD []).length

/-- Raw entry access with default 0 (natural-number indices). -/
def entry (g : Grid) (r c : Nat) : Nat := (g.getD r []).getD c 0

/-- `get_pixel` of `zhang_suen_thinning`: bounds-checked pixel read,
returning 0 outside the image. -/
def getPixel (g : Grid) (r c : Int) : Nat :=
  if 0 ≤ r ∧ r < (rowsOf g : Int) ∧ 0 ≤ c ∧ c < (colsOf g : Int) then
    entry g r.toNat c.toNat
  else 0

/-- `img[r][c] = 0`: set one pixel of the working image to background.
The guard on negative indices is never hit by the algorithm (deletion
coordinates are ≥ 1). -/
def setPixel (g : Grid) (r c : Int) : Grid :=
  if 0 ≤ r ∧ 0 ≤ c then
    g.set r.toNat ((g.getD r.toNat []).set c.toNat 0)
  else g

/-- Foreground count of one row. -/
def fgRow (l : List Nat) : Nat := l.countP (fun v => v != 0)

/-- Total foreground pixel count of a grid. -/
def fgCount (g : Grid) : Nat := (g.map fgRow).sum

/-- A grid is rectangular: every row has the width of the first row. -/
def IsRect (g : Grid) : Prop := ∀ row ∈ g, row.length = colsOf g

instance : DecidablePred IsRect := fun g =>
  decidable_of_iff (∀ row ∈ g, row.length = colsOf g) Iff.rfl

/-! ### Basic lemmas about `entry`, `getPixel`, `setPixel`, `fgCount` -/

theorem entry_nil (r c : Nat) : entry [] r c = 0 := by
  simp [entry]

theorem colsOf_eq_rowlen_zero (g : Grid) : colsOf g = (g.getD 0 []).length := by
  cases g <;> simp [colsOf, List.headD, List.getD]

theorem length_setPixel (g : Grid) (r c : Int) :
    (setPixel g r c).length = g.length := by
  unfold setPixel; split <;> simp

theorem rowlen_setPixel (g : Grid) (r c : Int) (i : Nat) :
    ((setPixel g r c).getD i []).length = (g.getD i []).length := by
  unfold setPixel
  split
  · rcases Nat.lt_or_ge r.toNat g.length with h | h
    · by_cases hi : i = r.toNat
      · subst hi
        rw [List.getD_eq_getElem?_getD, List.getElem?_set_self (by simpa using h)]
        simp [List.getD_eq_getElem?_getD]
      · rw [List.getD_eq_getElem?_getD, List.getElem?_set_ne (by omega)]
        simp [List.getD_eq_getElem?_getD]
    · rw [List.set_eq_of_length_le (by simpa using h)]
  · rfl

theorem colsOf_setPixel (g : Grid) (r c : Int) :
    colsOf (setPixel g r c) = colsOf g := by
  rw [colsOf_eq_rowlen_zero, colsOf_eq_rowlen_zero, rowlen_setPixel]

theorem getD_set_self {α : Type} (l : List α) (i : Nat) (a d : α) (h : i < l.length) :
    (l.set i a).getD i d = a := by
  rw [List.getD_eq_getElem?_getD, List.getElem?_set_self (by simpa using h)]
  rfl

theorem getD_set_ne {α : Type} (l : List α) (i j : Nat) (a d : α) (h : i ≠ j) :
    (l.set i a).getD j d = l.getD j d := by
  rw [List.getD_eq_getElem?_getD, List.getElem?_set_ne h, ← List.getD_eq_getElem?_getD]

/-- Setting a pixel only affects that pixel, and sets it to 0. -/
theorem getPixel_setPixel (g : Grid) (a b r c : Int) :
    getPixel (setPixel g a b) r c = if r = a ∧ c = b then 0 else getPixel g r c := by
  by_cases hab : 0 ≤ a ∧ 0 ≤ b
  · have hrows : rowsOf (setPixel g a b) = rowsOf g := length_setPixel g a b
    have hcols : colsOf (setPixel g a b) = colsOf g := colsOf_setPixel g a b
    unfold getPixel
    rw [hrows, hcols]
    by_cases hin : 0 ≤ r ∧ r < (rowsOf g : Int) ∧ 0 ≤ c ∧ c < (colsOf g : Int)
    · rw [if_pos hin, if_pos hin]
      by_cases heq : r = a ∧ c = b
      · rw [if_pos heq]
        obtain ⟨hr, hc⟩ := heq; subst hr; subst hc
        unfold setPixel entry
        rw [if_pos hab]
        rcases Nat.lt_or_ge r.toNat g.length with h | h
        · rw [getD_set_self _ _ _ _ h]
          rcases Nat.lt_or_ge c.toNat (g.getD r.toNat []).length with h2 | h2
          · rw [getD_set_self _ _ _ _ h2]
          · rw [List.set_eq_of_length_le (by omega : (g.getD r.toNat []).length ≤ c.toNat)]
            exact List.getD_eq_default _ _ (by omega)
        · have : (rowsOf g : Int) ≤ r := by
            have := Int.toNat_le.mp (le_refl r.toNat)
            unfold rowsOf; omega
          omega
      · rw [if_neg heq]
        unfold setPixel entry
        rw [if_pos hab]
        by_cases hr : r.toNat = a.toNat
        · have hra : r = a := by omega
          have hcb : ¬ c = b := by tauto
          rcases Nat.lt_or_ge a.toNat g.length with h | h
          · rw [hr, getD_set_self _ _ _ _ h, ← hr]
            have : ¬ c.toNat = b.toNat := by omega
            rw [hr, getD_set_ne _ _ _ _ _ (by omega), ← hr]
          · rw [List.set_eq_of_length_le (by simpa using h)]
        · rw [getD_set_ne _ _ _ _ _ (Ne.symm hr)]
    · rw [if_neg hin, if_neg hin]
      split <;> rfl
  · unfold setPixel
    rw [if_neg hab]
    by_cases heq : r = a ∧ c = b
    · rw [if_pos heq]
      obtain ⟨hr, hc⟩ := heq; subst hr; subst hc
      unfold getPixel
      rw [if_neg (by omega)]
    · rw [if_neg heq]

theorem countP_set_zero_le (l : List Nat) (i : Nat) :
    ((l.set i 0).countP (fun v => v != 0)) ≤ l.countP (fun v => v != 0) := by
  induction l generalizing i with
  | nil => simp
  | cons x xs ih =>
    cases i with
    | zero =>
      have hset : (x :: xs).set 0 0 = 0 :: xs := rfl
      rw [hset]
      simp [List.countP_cons]
    | succ j =>
      have hset : (x :: xs).set (j + 1) 0 = x :: xs.set j 0 := rfl
      rw [hset]
      simp only [List.countP_cons]
      have := ih j
      omega

theorem countP_set_zero_lt (l : List Nat) (i : Nat) (h : l.getD i 0 ≠ 0) :
    ((l.set i 0).countP (fun v => v != 0)) < l.countP (fun v => v != 0) := by
  induction l generalizing i with
  | nil => simp [List.getD] at h
  | cons x xs ih =>
    cases i with
    | zero =>
      simp only [List.getD_cons_zero] at h
      have hset : (x :: xs).set 0 0 = 0 :: xs := rfl
      rw [hset]
      simp [List.countP_cons, h]
    | succ j =>
      simp only [List.getD_cons_succ] at h
      have hset : (x :: xs).set (j + 1) 0 = x :: xs.set j 0 := rfl
      rw [hset]
      simp only [List.countP_cons]
      have := ih j h
      omega

theorem sum_set_le (l : List Nat) (i : Nat) (a : Nat) (h : a ≤ l.getD i 0) :
    (l.set i a).sum ≤ l.sum := by
  induction l generalizing i with
  | nil => simp
  | cons x xs ih =>
    cases i with
    | zero =>
      simp only [List.getD_cons_zero] at h
      have hset : (x :: xs).set 0 a = a :: xs := rfl
      rw [hset]
      simp only [List.sum_cons]
      omega
    | succ j =>
      simp only [List.getD_cons_succ] at h
      have hset : (x :: xs).set (j + 1) a = x :: xs.set j a := rfl
      rw [hset]
      simp only [List.sum_cons]
      have := ih j h
      omega

theorem sum_set_lt (l : List Nat) (i : Nat) (a : Nat) (hi : i < l.length)
    (h : a < l.getD i 0) : (l.set i a).sum < l.sum := by
  induction l generalizing i with
  | nil => simp at hi
  | cons x xs ih =>
    cases i with
    | zero =>
      simp only [List.getD_cons_zero] at h
      have hset : (x :: xs).set 0 a = a :: xs := rfl
      rw [hset]
      simp only [List.sum_cons]
      omega
    | succ j =>
      simp only [List.getD_cons_succ] at h
      have hset : (x :: xs).set (j + 1) a = x :: xs.set j a := rfl
      rw [hset]
      simp only [List.sum_cons]
      have := ih j (by simpa using hi) h
      omega

theorem getD_map_fgRow (g : Grid) (i : Nat) :
    (g.map fgRow).getD i 0 = fgRow (g.getD i []) := by
  induction g generalizing i with
  | nil => simp [fgRow]
  | cons x xs ih =>
    cases i with
    | zero => simp
    | succ j => simpa using ih j

theorem fgCount_setPixel_le (g : Grid) (r c : Int) :
    fgCount (setPixel g r c) ≤ fgCount g := by
  unfold setPixel
  split
  · unfold fgCount
    rw [List.map_set]
    apply sum_set_le
    rw [getD_map_fgRow]
    exact countP_set_zero_le _ _
  · exact le_refl _

theorem fgCount_setPixel_lt (g : Grid) (r c : Int) (h : getPixel g r c ≠ 0) :
    fgCount (setPixel g r c) < fgCount g := by
  unfold getPixel at h
  by_cases hin : 0 ≤ r ∧ r < (rowsOf g : Int) ∧ 0 ≤ c ∧ c < (colsOf g : Int)
  · rw [if_pos hin] at h
    unfold setPixel
    rw [if_pos ⟨hin.1, hin.2.2.1⟩]
    unfold fgCount
    rw [List.map_set]
    apply sum_set_lt
    · have hr : r.toNat < g.length := by
        have := hin.2.1
        unfold rowsOf at this
        omega
      simpa using hr
    · rw [getD_map_fgRow]
      exact countP_set_zero_lt _ _ h
  · rw [if_neg hin] at h; exact absurd rfl h

/-- Apply a list of marked deletions (`for r, c in to_delete: img[r][c] = 0`). -/
def applyDel (g : Grid) (dels : List (Int × Int)) : Grid :=
  dels.foldl (fun h p => setPixel h p.1 p.2) g

theorem applyDel_nil (g : Grid) : applyDel g [] = g := rfl

theorem applyDel_cons (g : Grid) (p : Int × Int) (rest : List (Int × Int)) :
    applyDel g (p :: rest) = applyDel (setPixel g p.1 p.2) rest := rfl

/-- Deletions are applied together after the scan: the result is the
pointwise "zero out exactly the marked positions" update. -/
theorem getPixel_applyDel (g : Grid) (dels : List (Int × Int)) (r c : Int) :
    getPixel (applyDel g dels) r c = if (r, c) ∈ dels then 0 else getPixel g r c := by
  induction dels generalizing g with
  | nil => simp [applyDel_nil]
  | cons p rest ih =>
    rw [applyDel_cons, ih, getPixel_setPixel]
    by_cases hmem : (r, c) ∈ rest
    · simp [hmem]
    · by_cases hp : (r, c) = p
      · have : r = p.1 ∧ c = p.2 := by
          rw [Prod.ext_iff] at hp; exact hp
        simp [hmem, hp, this]
      · have : ¬ (r = p.1 ∧ c = p.2) := by
          rw [Prod.ext_iff] at hp; exact hp
        simp [hmem, hp, this]

theorem length_applyDel (g : Grid) (dels : List (Int × Int)) :
    (applyDel g dels).length = g.length := by
  induction dels generalizing g with
  | nil => rfl
  | cons p rest ih => rw [applyDel_cons, ih, length_setPixel]

theorem rowlen_applyDel (g : Grid) (dels : List (Int × Int)) (i : Nat) :
    ((applyDel g dels).getD i []).length = (g.getD i []).length := by
  induction dels generalizing g with
  | nil => rfl
  | cons p rest ih => rw [applyDel_cons, ih, rowlen_setPixel]

theorem colsOf_applyDel (g : Grid) (dels : List (Int × Int)) :
    colsOf (applyDel g dels) = colsOf g := by
  rw [colsOf_eq_rowlen_zero, colsOf_eq_rowlen_zero, rowlen_applyDel]

theorem fgCount_applyDel_le (g : Grid) (dels : List (Int × Int)) :
    fgCount (applyDel g dels) ≤ fgCount g := by
  induction dels generalizing g with
  | nil => exact le_refl _
  | cons p rest ih =>
    rw [applyDel_cons]
    exact (ih _).trans (fgCount_setPixel_le g p.1 p.2)

theorem fgCount_applyDel_lt (g : Grid) (dels : List (Int × Int))
    (h : ∃ p ∈ dels, getPixel g p.1 p.2 ≠ 0) :
    fgCount (applyDel g dels) < fgCount g := by
  induction dels generalizing g with
  | nil => obtain ⟨p, hp, _⟩ := h; simp at hp
  | cons q rest ih =>
    rw [applyDel_cons]
    by_cases hq : getPixel g q.1 q.2 ≠ 0
    · exact (fgCount_applyDel_le _ _).trans_lt (fgCount_setPixel_lt g q.1 q.2 hq)
    · push_neg at hq
      obtain ⟨p, hp, hpv⟩ := h
      rcases List.mem_cons.mp hp with rfl | hp2
      · exact absurd hq hpv
      · have hkeep : getPixel (setPixel g q.1 q.2) p.1 p.2 ≠ 0 := by
          rw [getPixel_setPixel]
          split
          · rename_i hc
            rw [hc.1, hc.2] at hpv
            exact absurd hq hpv
          · exact hpv
        calc fgCount (applyDel (setPixel g q.1 q.2) rest)
            < fgCount (setPixel g q.1 q.2) := ih _ ⟨p, hp2, hkeep⟩
          _ ≤ fgCount g := fgCount_setPixel_le g q.1 q.2

/-! ### Zhang-Suen thinning (`zhang_suen_thinning` of `skeleton_utils.py`) -/

/-- `count_neighbors`: the 8-neighbour ring values in clockwise order from
north, `[P2, P3, P4, P5, P6, P7, P8, P9]`. -/
def countNeighbors (g : Grid) (r c : Int) : List Nat :=
  [getPixel g (r-1) c, getPixel g (r-1) (c+1), getPixel g r (c+1),
   getPixel g (r+1) (c+1), getPixel g (r+1) c, getPixel g (r+1) (c-1),
   getPixel g r (c-1), getPixel g (r-1) (c-1)]

/-- `transitions`: count of 0→1 transitions along `P2, P3, ..., P9, P2`. -/
def transitions (nbrs : List Nat) : Nat :=
  let n := nbrs ++ [nbrs.headD 0]
  (n.zip n.tail).countP (fun p => p.1 == 0 && p.2 == 1)

/-- Deletion condition of sub-iteration 1:
`2 ≤ B ≤ 6`, `A = 1`, `P2·P4·P6 = 0`, `P4·P6·P8 = 0`. -/
def zsCond1 (g : Grid) (r c : Int) : Bool :=
  let nbrs := countNeighbors g r c
  let B := nbrs.sum
  let A := transitions nbrs
  decide (2 ≤ B) && decide (B ≤ 6) && decide (A = 1) &&
  decide (nbrs.getD 0 0 * nbrs.getD 2 0 * nbrs.getD 4 0 = 0) &&
  decide (nbrs.getD 2 0 * nbrs.getD 4 0 * nbrs.getD 6 0 = 0)

/-- Deletion condition of sub-iteration 2:
`2 ≤ B ≤ 6`, `A = 1`, `P2·P4·P8 = 0`, `P2·P6·P8 = 0`. -/
def zsCond2 (g : Grid) (r c : Int) : Bool :=
  let nbrs := countNeighbors g r c
  let B := nbrs.sum
  let A := transitions nbrs
  decide (2 ≤ B) && decide (B ≤ 6) && decide (A = 1) &&
  decide (nbrs.getD 0 0 * nbrs.getD 2 0 * nbrs.getD 6 0 = 0) &&
  decide (nbrs.getD 0 0 * nbrs.getD 4 0 * nbrs.getD 6 0 = 0)

/-- The scan range `range(1, n - 1)` as integers. -/
def interiorRange (n : Nat) : List Int :=
  (List.range (n - 2)).map (fun (i : Nat) => (i : Int) + 1)

/-- Positions marked for deletion by the sub-iteration-1 scan, in scan
order; every condition is evaluated against `g`, the grid as it was
before the sub-iteration started. -/
def toDelete1 (g : Grid) : List (Int × Int) :=
  (interiorRange (rowsOf g)).flatMap (fun r =>
    (interiorRange (colsOf g)).filterMap (fun c =>
      if getPixel g r c != 0 && zsCond1 g r c then some (r, c) else none))

/-- Positions marked for deletion by the sub-iteration-2 scan. -/
def toDelete2 (g : Grid) : List (Int × Int) :=
  (interiorRange (rowsOf g)).flatMap (fun r =>
    (interiorRange (colsOf g)).filterMap (fun c =>
      if getPixel g r c != 0 && zsCond2 g r c then some (r, c) else none))

/-- Sub-iteration 1: scan against the frozen grid, then apply all marked
deletions together. -/
def zsStep1 (g : Grid) : Grid := applyDel g (toDelete1 g)

/-- Sub-iteration 2. -/
def zsStep2 (g : Grid) : Grid := applyDel g (toDelete2 g)

/-- One full pass: sub-iteration 1 followed by sub-iteration 2. -/
def zsPass (g : Grid) : Grid := zsStep2 (zsStep1 g)

/-- The `while changed` fixpoint loop, with explicit fuel.  One iteration
runs both sub-iterations; `changed` is false exactly when both marked
lists were empty. -/
def zhangSuenFuel : Nat → Grid → Grid
  | 0, g => g
  | fuel + 1, g =>
    let d1 := toDelete1 g
    let g1 := applyDel g d1
    let d2 := toDelete2 g1
    let g2 := applyDel g1 d2
    if d1.isEmpty && d2.isEmpty then g2 else zhangSuenFuel fuel g2

/-- `zhang_suen_thinning`: the fuel `fgCount g + 1` is provably sufficient
because every non-terminal pass deletes at least one foreground pixel. -/
def zhang_suen_thinning (g : Grid) : Grid := zhangSuenFuel (fgCount g + 1) g

/-- `skeletonize`: pad with a background border, thin, unpad. -/
def pad (g : Grid) : Grid :=
  (List.replicate (colsOf g + 2) 0) ::
    (g.map (fun row => 0 :: (row ++ [0])) ++ [List.replicate (colsOf g + 2) 0])

/-- The unpadding slice `thinned[r][1:cols+1]` for `r in range(1, rows+1)`. -/
def unpad (rows cols : Nat) (t : Grid) : Grid :=
  (List.range rows).map (fun r => ((t.getD (r + 1) []).drop 1).take cols)

def skeletonize (g : Grid) : Grid :=
  if g.length = 0 then g
  else unpad g.length (colsOf g) (zhang_suen_thinning (pad g))

/-! ### Lemmas about the thinning loop -/

theorem mem_interiorRange (n : Nat) (r : Int) :
    r ∈ interiorRange n ↔ 1 ≤ r ∧ r ≤ (n : Int) - 2 := by
  unfold interiorRange
  rw [List.mem_map]
  constructor
  · rintro ⟨i, hi, rfl⟩
    rw [List.mem_range] at hi
    omega
  · intro h
    refine ⟨(r - 1).toNat, ?_, ?_⟩
    · rw [List.mem_range]
      omega
    · omega

theorem mem_toDelete1 (g : Grid) (r c : Int) :
    (r, c) ∈ toDelete1 g ↔
      (1 ≤ r ∧ r ≤ (rowsOf g : Int) - 2 ∧ 1 ≤ c ∧ c ≤ (colsOf g : Int) - 2 ∧
        getPixel g r c ≠ 0 ∧ zsCond1 g r c = true) := by
  unfold toDelete1
  simp only [List.mem_flatMap, List.mem_filterMap, mem_interiorRange]
  constructor
  · rintro ⟨a, ha, b, hb, hif⟩
    by_cases hc : (getPixel g a b != 0 && zsCond1 g a b) = true
    · rw [if_pos hc] at hif
      have hab : a = r ∧ b = c := by
        have := Option.some_inj.mp hif
        rw [Prod.ext_iff] at this
        exact this
      obtain ⟨rfl, rfl⟩ := hab
      simp only [Bool.and_eq_true, bne_iff_ne, ne_eq] at hc
      exact ⟨ha.1, ha.2, hb.1, hb.2, hc.1, hc.2⟩
    · rw [if_neg hc] at hif
      exact absurd hif (by simp)
  · rintro ⟨h1, h2, h3, h4, h5, h6⟩
    refine ⟨r, ⟨h1, h2⟩, c, ⟨h3, h4⟩, ?_⟩
    rw [if_pos (by simp only [Bool.and_eq_true, bne_iff_ne, ne_eq]; exact ⟨h5, h6⟩)]

theorem mem_toDelete2 (g : Grid) (r c : Int) :
    (r, c) ∈ toDelete2 g ↔
      (1 ≤ r ∧ r ≤ (rowsOf g : Int) - 2 ∧ 1 ≤ c ∧ c ≤ (colsOf g : Int) - 2 ∧
        getPixel g r c ≠ 0 ∧ zsCond2 g r c = true) := by
  unfold toDelete2
  simp only [List.mem_flatMap, List.mem_filterMap, mem_interiorRange]
  constructor
  · rintro ⟨a, ha, b, hb, hif⟩
    by_cases hc : (getPixel g a b != 0 && zsCond2 g a b) = true
    · rw [if_pos hc] at hif
      have hab : a = r ∧ b = c := by
        have := Option.some_inj.mp hif
        rw [Prod.ext_iff] at this
        exact this
      obtain ⟨rfl, rfl⟩ := hab
      simp only [Bool.and_eq_true, bne_iff_ne, ne_eq] at hc
      exact ⟨ha.1, ha.2, hb.1, hb.2, hc.1, hc.2⟩
    · rw [if_neg hc] at hif
      exact absurd hif (by simp)
  · rintro ⟨h1, h2, h3, h4, h5, h6⟩
    refine ⟨r, ⟨h1, h2⟩, c, ⟨h3, h4⟩, ?_⟩
    rw [if_pos (by simp only [Bool.and_eq_true, bne_iff_ne, ne_eq]; exact ⟨h5, h6⟩)]

/-- Every marked position was foreground in the frozen grid. -/
theorem toDelete1_fg (g : Grid) (p : Int × Int) (h : p ∈ toDelete1 g) :
    getPixel g p.1 p.2 ≠ 0 := by
  obtain ⟨a, b⟩ := p
  exact ((mem_toDelete1 g a b).mp h).2.2.2.2.1

theorem toDelete2_fg (g : Grid) (p : Int × Int) (h : p ∈ toDelete2 g) :
    getPixel g p.1 p.2 ≠ 0 := by
  obtain ⟨a, b⟩ := p
  exact ((mem_toDelete2 g a b).mp h).2.2.2.2.1

theorem getPixel_applyDel_le (g : Grid) (dels : List (Int × Int)) (r c : Int) :
    getPixel (applyDel g dels) r c ≤ getPixel g r c := by
  rw [getPixel_applyDel]
  split
  · exact Nat.zero_le _
  · exact le_refl _

theorem getPixel_zsPass_le (g : Grid) (r c : Int) :
    getPixel (zsPass g) r c ≤ getPixel g r c := by
  unfold zsPass zsStep2 zsStep1
  exact (getPixel_applyDel_le _ _ r c).trans (getPixel_applyDel_le _ _ r c)

theorem fgCount_zsPass_le (g : Grid) : fgCount (zsPass g) ≤ fgCount g := by
  unfold zsPass zsStep2 zsStep1
  exact (fgCount_applyDel_le _ _).trans (fgCount_applyDel_le _ _)

theorem length_zsPass (g : Grid) : (zsPass g).length = g.length := by
  unfold zsPass zsStep2 zsStep1
  rw [length_applyDel, length_applyDel]

theorem rowlen_zsPass (g : Grid) (i : Nat) :
    ((zsPass g).getD i []).length = (g.getD i []).length := by
  unfold zsPass zsStep2 zsStep1
  rw [rowlen_applyDel, rowlen_applyDel]

theorem colsOf_zsPass (g : Grid) : colsOf (zsPass g) = colsOf g := by
  unfold zsPass zsStep2 zsStep1
  rw [colsOf_applyDel, colsOf_applyDel]

/-- The loop body: `zhangSuenFuel (fuel+1) g` runs one full pass and either
stops (nothing was marked) or recurses. -/
theorem zhangSuenFuel_succ (fuel : Nat) (g : Grid) :
    zhangSuenFuel (fuel + 1) g =
      if (toDelete1 g).isEmpty && (toDelete2 (zsStep1 g)).isEmpty then zsPass g
      else zhangSuenFuel fuel (zsPass g) := by
  rfl

/-- A non-terminal pass strictly decreases the foreground count. -/
theorem fgCount_zsPass_lt (g : Grid)
    (h : ¬ (toDelete1 g = [] ∧ toDelete2 (zsStep1 g) = [])) :
    fgCount (zsPass g) < fgCount g := by
  by_cases h1 : toDelete1 g = []
  · have h2 : toDelete2 (zsStep1 g) ≠ [] := by tauto
    have hstep1 : zsStep1 g = g := by
      unfold zsStep1; rw [h1, applyDel_nil]
    rw [hstep1] at h2
    obtain ⟨q, hq⟩ := List.exists_mem_of_ne_nil _ h2
    have : fgCount (zsStep2 g) < fgCount g := by
      unfold zsStep2
      exact fgCount_applyDel_lt _ _ ⟨q, hq, toDelete2_fg g q hq⟩
    unfold zsPass
    rwa [hstep1]
  · obtain ⟨p, hp⟩ := List.exists_mem_of_ne_nil _ h1
    have hstep1 : fgCount (zsStep1 g) < fgCount g := by
      unfold zsStep1
      exact fgCount_applyDel_lt _ _ ⟨p, hp, toDelete1_fg g p hp⟩
    unfold zsPass
    exact (fgCount_applyDel_le _ _).trans_lt hstep1

/-- The terminal state of the loop: both sub-iterations mark nothing. -/
def ZSDone (g : Grid) : Prop :=
  toDelete1 g = [] ∧ toDelete2 (zsStep1 g) = []

instance : DecidablePred ZSDone := fun g => by
  unfold ZSDone; infer_instance

theorem zsPass_of_done (g : Grid) (h : ZSDone g) : zsPass g = g := by
  obtain ⟨h1, h2⟩ := h
  unfold zsPass zsStep2
  have hstep1 : zsStep1 g = g := by unfold zsStep1; rw [h1, applyDel_nil]
  rw [hstep1] at h2 ⊢
  rw [h2, applyDel_nil]

/-- Fuel sufficiency: with more fuel than foreground pixels, the loop
reaches the terminal state. -/
theorem zhangSuenFuel_done (fuel : Nat) :
    ∀ g : Grid, fgCount g < fuel → ZSDone (zhangSuenFuel fuel g) := by
  induction fuel with
  | zero => intro g h; omega
  | succ n ih =>
    intro g h
    rw [zhangSuenFuel_succ]
    by_cases hdone : (toDelete1 g).isEmpty && (toDelete2 (zsStep1 g)).isEmpty
    · rw [if_pos hdone]
      simp only [Bool.and_eq_true, List.isEmpty_iff] at hdone
      have : ZSDone g := hdone
      rw [zsPass_of_done g this]
      exact this
    · rw [if_neg hdone]
      apply ih
      have hne : ¬ (toDelete1 g = [] ∧ toDelete2 (zsStep1 g) = []) := by
        simpa [Bool.and_eq_true, List.isEmpty_iff] using hdone
      have := fgCount_zsPass_lt g hne
      omega

/-- Whatever the fuel, the loop computes some iterate of the full pass. -/
theorem zhangSuenFuel_iterate (fuel : Nat) :
    ∀ g : Grid, ∃ n : Nat, zhangSuenFuel fuel g = zsPass^[n] g := by
  induction fuel with
  | zero => intro g; exact ⟨0, rfl⟩
  | succ m ih =>
    intro g
    rw [zhangSuenFuel_succ]
    by_cases hdone : (toDelete1 g).isEmpty && (toDelete2 (zsStep1 g)).isEmpty
    · rw [if_pos hdone]
      exact ⟨1, by simp⟩
    · rw [if_neg hdone]
      obtain ⟨n, hn⟩ := ih (zsPass g)
      exact ⟨n + 1, by rw [hn, Function.iterate_succ_apply]⟩

theorem zhang_suen_done (g : Grid) : ZSDone (zhang_suen_thinning g) :=
  zhangSuenFuel_done (fgCount g + 1) g (Nat.lt_succ_self _)

theorem zhang_suen_fix (g : Grid) (h : ZSDone g) : zhang_suen_thinning g = g := by
  unfold zhang_suen_thinning
  rw [zhangSuenFuel_succ,
    if_pos (by simp only [Bool.and_eq_true, List.isEmpty_iff]; exact h)]
  exact zsPass_of_done g h

theorem zhang_suen_idem (g : Grid) :
    zhang_suen_thinning (zhang_suen_thinning g) = zhang_suen_thinning g :=
  zhang_suen_fix _ (zhang_suen_done g)

theorem length_zhangSuenFuel (fuel : Nat) :
    ∀ g : Grid, (zhangSuenFuel fuel g).length = g.length := by
  induction fuel with
  | zero => intro g; rfl
  | succ n ih =>
    intro g
    rw [zhangSuenFuel_succ]
    split
    · exact length_zsPass g
    · rw [ih (zsPass g), length_zsPass]

theorem rowlen_zhangSuenFuel (fuel : Nat) :
    ∀ (g : Grid) (i : Nat),
      ((zhangSuenFuel fuel g).getD i []).length = (g.getD i []).length := by
  induction fuel with
  | zero => intro g i; rfl
  | succ n ih =>
    intro g i
    rw [zhangSuenFuel_succ]
    split
    · exact rowlen_zsPass g i
    · rw [ih (zsPass g) i, rowlen_zsPass]

theorem getPixel_zhangSuenFuel_le (fuel : Nat) :
    ∀ (g : Grid) (r c : Int),
      getPixel (zhangSuenFuel fuel g) r c ≤ getPixel g r c := by
  induction fuel with
  | zero => intro g r c; exact le_refl _
  | succ n ih =>
    intro g r c
    rw [zhangSuenFuel_succ]
    split
    · exact getPixel_zsPass_le g r c
    · exact (ih (zsPass g) r c).trans (getPixel_zsPass_le g r c)

theorem length_zhang_suen (g : Grid) :
    (zhang_suen_thinning g).length = g.length := length_zhangSuenFuel _ g

theorem rowlen_zhang_suen (g : Grid) (i : Nat) :
    ((zhang_suen_thinning g).getD i []).length = (g.getD i []).length :=
  rowlen_zhangSuenFuel _ g i

theorem getPixel_zhang_suen_le (g : Grid) (r c : Int) :
    getPixel (zhang_suen_thinning g) r c ≤ getPixel g r c :=
  getPixel_zhangSuenFuel_le _ g r c

/-! ### Padding and unpadding -/

theorem getD_drop {α : Type} (l : List α) (m i : Nat) (d : α) :
    (l.drop m).getD i d = l.getD (m + i) d := by
  induction l generalizing m with
  | nil => simp
  | cons x xs ih =>
    cases m with
    | zero => simp
    | succ k =>
      have : (x :: xs).drop (k + 1) = xs.drop k := rfl
      rw [this, ih k, Nat.succ_add]
      rfl

theorem getD_take {α : Type} (l : List α) (k i : Nat) (d : α) (h : i < k) :
    (l.take k).getD i d = l.getD i d := by
  induction l generalizing k i with
  | nil => simp
  | cons x xs ih =>
    cases k with
    | zero => omega
    | succ m =>
      cases i with
      | zero => rfl
      | succ j =>
        have : (x :: xs).take (m + 1) = x :: xs.take m := rfl
        rw [this, List.getD_cons_succ, List.getD_cons_succ, ih m j (by omega)]

theorem getD_replicate_self {α : Type} (n i : Nat) (a d : α) :
    (List.replicate n a).getD i d = if i < n then a else d := by
  induction n generalizing i with
  | zero => simp
  | succ m ih =>
    cases i with
    | zero => simp [List.replicate]
    | succ j =>
      rw [List.replicate_succ, List.getD_cons_succ, ih j]
      by_cases h : j < m
      · rw [if_pos h, if_pos (by omega)]
      · rw [if_neg h, if_neg (by omega)]

theorem getD_append_left {α : Type} (l l' : List α) (i : Nat) (d : α)
    (h : i < l.length) : ((l ++ l').getD i d) = l.getD i d := by
  induction l generalizing i with
  | nil => simp at h
  | cons x xs ih =>
    cases i with
    | zero => rfl
    | succ j =>
      have : (x :: xs) ++ l' = x :: (xs ++ l') := rfl
      rw [this, List.getD_cons_succ, List.getD_cons_succ, ih j (by simpa using h)]

theorem getD_append_right_of_le {α : Type} (l l' : List α) (i : Nat) (d : α)
    (h : l.length ≤ i) : ((l ++ l').getD i d) = l'.getD (i - l.length) d := by
  induction l generalizing i with
  | nil => simp
  | cons x xs ih =>
    cases i with
    | zero => simp at h
    | succ j =>
      have : (x :: xs) ++ l' = x :: (xs ++ l') := rfl
      rw [this, List.getD_cons_succ, ih j (by simpa using h)]
      simp

/-- Extensionality for lists via `getD`. -/
theorem list_ext_getD {α : Type} (d : α) (A B : List α) (hlen : A.length = B.length)
    (h : ∀ i, i < A.length → A.getD i d = B.getD i d) : A = B := by
  induction A generalizing B with
  | nil =>
    cases B with
    | nil => rfl
    | cons y ys => simp at hlen
  | cons x xs ih =>
    cases B with
    | nil => simp at hlen
    | cons y ys =>
      have h0 : x = y := h 0 (by simp)
      have hrest : xs = ys := by
        apply ih
        · simpa using hlen
        · intro i hi
          have := h (i + 1) (by simpa using Nat.succ_lt_succ hi)
          simpa using this
      rw [h0, hrest]

theorem getD_mem_of_lt {α : Type} (l : List α) (i : Nat) (d : α) (h : i < l.length) :
    l.getD i d ∈ l := by
  induction l generalizing i with
  | nil => simp at h
  | cons x xs ih =>
    cases i with
    | zero => simp
    | succ j =>
      rw [List.getD_cons_succ]
      exact List.mem_cons_of_mem x (ih j (by simpa using h))

theorem getD_map_of_lt {α β : Type} (l : List α) (f : α → β) (i : Nat) (d : β)
    (d2 : α) (h : i < l.length) : (l.map f).getD i d = f (l.getD i d2) := by
  induction l generalizing i with
  | nil => simp at h
  | cons x xs ih =>
    cases i with
    | zero => rfl
    | succ j =>
      have : (x :: xs).map f = f x :: xs.map f := rfl
      rw [this, List.getD_cons_succ, List.getD_cons_succ, ih j (by simpa using h)]

theorem length_pad (g : Grid) : (pad g).length = g.length + 2 := by
  unfold pad; simp

theorem getD_pad_zero (g : Grid) :
    (pad g).getD 0 [] = List.replicate (colsOf g + 2) 0 := rfl

theorem getD_pad_mid (g : Grid) (i : Nat) (h : i < g.length) :
    (pad g).getD (i + 1) [] = 0 :: (g.getD i [] ++ [0]) := by
  unfold pad
  rw [List.getD_cons_succ]
  rw [getD_append_left _ _ _ _ (by simpa using h)]
  rw [getD_map_of_lt _ _ _ _ [] h]

theorem getD_pad_last (g : Grid) :
    (pad g).getD (g.length + 1) [] = List.replicate (colsOf g + 2) 0 := by
  unfold pad
  rw [List.getD_cons_succ]
  rw [getD_append_right_of_le _ _ _ _ (by simp)]
  simp

theorem colsOf_pad (g : Grid) : colsOf (pad g) = colsOf g + 2 := by
  rw [colsOf_eq_rowlen_zero, getD_pad_zero, List.length_replicate]

theorem rowlen_pad (g : Grid) (hrect : IsRect g) (i : Nat) (h : i < g.length + 2) :
    ((pad g).getD i []).length = colsOf g + 2 := by
  cases i with
  | zero => rw [getD_pad_zero, List.length_replicate]
  | succ j =>
    rcases Nat.lt_or_ge j g.length with hj | hj
    · rw [getD_pad_mid g j hj]
      have hl : (g.getD j []).length = colsOf g := hrect _ (getD_mem_of_lt g j _ hj)
      simp only [List.length_cons, List.length_append, List.length_singleton,
        List.length_nil, hl]
    · have hje : j = g.length := by omega
      subst hje
      rw [getD_pad_last, List.length_replicate]

theorem getPixel_natCast (g : Grid) (r c : Nat) (hr : r < g.length) (hc : c < colsOf g) :
    getPixel g (r : Int) (c : Int) = entry g r c := by
  unfold getPixel
  rw [if_pos]
  · norm_num
  · refine ⟨by omega, ?_, by omega, ?_⟩
    · unfold rowsOf; exact_mod_cast hr
    · exact_mod_cast hc

/-! ### Facts about the thinned padded grid and the unpad slice -/

section PadUnpad

variable (g : Grid)

/-- Dimensions of the thinned padded grid. -/
theorem thinned_length :
    (zhang_suen_thinning (pad g)).length = g.length + 2 := by
  rw [length_zhang_suen, length_pad]

theorem thinned_rowlen (hrect : IsRect g) (i : Nat) (h : i < g.length + 2) :
    ((zhang_suen_thinning (pad g)).getD i []).length = colsOf g + 2 := by
  rw [rowlen_zhang_suen, rowlen_pad g hrect i h]

theorem thinned_colsOf (hrect : IsRect g) :
    colsOf (zhang_suen_thinning (pad g)) = colsOf g + 2 := by
  rw [colsOf_eq_rowlen_zero, thinned_rowlen g hrect 0 (by omega)]

/-- All border entries of the padded grid are 0. -/
theorem entry_pad_border (hrect : IsRect g) (i j : Nat)
    (hi : i < g.length + 2) (hj : j < colsOf g + 2)
    (hb : i = 0 ∨ i = g.length + 1 ∨ j = 0 ∨ j = colsOf g + 1) :
    entry (pad g) i j = 0 := by
  unfold entry
  rcases hb with rfl | rfl | rfl | rfl
  · rw [getD_pad_zero, getD_replicate_self, if_pos hj]
  · rw [getD_pad_last, getD_replicate_self, if_pos hj]
  · cases i with
    | zero => rw [getD_pad_zero, getD_replicate_self, if_pos hj]
    | succ k =>
      rcases Nat.lt_or_ge k g.length with hk | hk
      · rw [getD_pad_mid g k hk]; rfl
      · have : k = g.length := by omega
        subst this
        rw [getD_pad_last, getD_replicate_self, if_pos hj]
  · cases i with
    | zero => rw [getD_pad_zero, getD_replicate_self, if_pos hj]
    | succ k =>
      rcases Nat.lt_or_ge k g.length with hk | hk
      · rw [getD_pad_mid g k hk, List.getD_cons_succ]
        have hlen : (g.getD k []).length = colsOf g :=
          hrect _ (getD_mem_of_lt g k _ hk)
        rw [getD_append_right_of_le _ _ _ _ (by omega)]
        rw [hlen]
        simp
      · have : k = g.length := by omega
        subst this
        rw [getD_pad_last, getD_replicate_self, if_pos hj]

/-- Interior entries of the padded grid are the original entries. -/
theorem entry_pad_mid (hrect : IsRect g) (i j : Nat)
    (hi : i < g.length) (hj : j < colsOf g) :
    entry (pad g) (i + 1) (j + 1) = entry g i j := by
  unfold entry
  rw [getD_pad_mid g i hi, List.getD_cons_succ]
  have hlen : (g.getD i []).length = colsOf g := hrect _ (getD_mem_of_lt g i _ hi)
  rw [getD_append_left _ _ _ _ (by omega)]

/-- Border entries of the thinned padded grid are still 0 (thinning only
deletes). -/
theorem entry_thinned_border (hrect : IsRect g) (i j : Nat)
    (hi : i < g.length + 2) (hj : j < colsOf g + 2)
    (hb : i = 0 ∨ i = g.length + 1 ∨ j = 0 ∨ j = colsOf g + 1) :
    entry (zhang_suen_thinning (pad g)) i j = 0 := by
  have h1 : entry (zhang_suen_thinning (pad g)) i j
      = getPixel (zhang_suen_thinning (pad g)) i j := by
    rw [getPixel_natCast]
    · rw [thinned_length]; exact hi
    · rw [thinned_colsOf g hrect]; exact hj
  have h2 : getPixel (pad g) (i : Int) (j : Int) = entry (pad g) i j := by
    rw [getPixel_natCast]
    · rw [length_pad]; exact hi
    · rw [colsOf_pad]; exact hj
  have := getPixel_zhang_suen_le (pad g) i j
  rw [h1]
  rw [h2, entry_pad_border g hrect i j hi hj hb] at this
  omega

theorem length_unpad (rows cols : Nat) (t : Grid) :
    (unpad rows cols t).length = rows := by
  unfold unpad; simp

theorem getD_unpad (rows cols : Nat) (t : Grid) (i : Nat) (h : i < rows) :
    (unpad rows cols t).getD i [] = ((t.getD (i + 1) []).drop 1).take cols := by
  unfold unpad
  rw [getD_map_of_lt _ _ _ _ 0 (by simpa using h)]
  have : (List.range rows).getD i 0 = i := by
    rw [List.getD_eq_getElem?_getD, List.getElem?_range h]
    rfl
  rw [this]

/-- Entries of the unpad slice. -/
theorem entry_unpad (rows cols : Nat) (t : Grid) (i j : Nat)
    (hi : i < rows) (hj : j < cols) :
    entry (unpad rows cols t) i j = entry t (i + 1) (j + 1) := by
  unfold entry
  rw [getD_unpad rows cols t i hi]
  rw [getD_take _ _ _ _ hj, getD_drop, Nat.add_comm 1 j]

theorem rowlen_unpad (rows cols : Nat) (t : Grid) (i : Nat) (hi : i < rows)
    (ht : (t.getD (i + 1) []).length = cols + 2) :
    ((unpad rows cols t).getD i []).length = cols := by
  rw [getD_unpad rows cols t i hi]
  rw [List.length_take, List.length_drop, ht]
  omega

theorem colsOf_unpad (rows cols : Nat) (t : Grid) (hrows : 0 < rows)
    (ht : (t.getD 1 []).length = cols + 2) :
    colsOf (unpad rows cols t) = cols := by
  rw [colsOf_eq_rowlen_zero]
  exact rowlen_unpad rows cols t 0 hrows ht

end PadUnpad

/-- Re-padding the unpadded thinned grid gives back the thinned grid:
the thinning loop never touches the zero border. -/
theorem pad_unpad_thinned (g : Grid) (hrect : IsRect g) (hrows : 0 < g.length) :
    pad (unpad g.length (colsOf g) (zhang_suen_thinning (pad g)))
      = zhang_suen_thinning (pad g) := by
  set T := zhang_suen_thinning (pad g) with hT
  set U := unpad g.length (colsOf g) T with hU
  have hTlen : T.length = g.length + 2 := thinned_length g
  have hTrow : ∀ i, i < g.length + 2 → (T.getD i []).length = colsOf g + 2 :=
    fun i h => thinned_rowlen g hrect i h
  have hUlen : U.length = g.length := length_unpad _ _ _
  have hUcols : colsOf U = colsOf g :=
    colsOf_unpad _ _ _ hrows (hTrow 1 (by omega))
  have hUrow : ∀ i, i < g.length → (U.getD i []).length = colsOf g :=
    fun i h => rowlen_unpad _ _ _ i h (hTrow (i + 1) (by omega))
  have hUrect : IsRect U := by
    intro row hrow
    obtain ⟨k2, hk2, rfl⟩ := List.getElem_of_mem hrow
    have hg : U[k2] = U.getD k2 [] := by
      rw [List.getD_eq_getElem?_getD, List.getElem?_eq_getElem hk2]
      rfl
    rw [hg, hUcols, hUrow k2 (by omega)]
  apply list_ext_getD []
  · rw [length_pad, hUlen, hTlen]
  · intro i hi
    rw [length_pad, hUlen] at hi
    have hrowlen : ((pad U).getD i []).length = (T.getD i []).length := by
      rw [hTrow i hi]
      rw [rowlen_pad U hUrect i (by omega), hUcols]
    apply list_ext_getD 0 _ _ hrowlen
    intro j hj
    have hjlt : j < colsOf g + 2 := by
      rw [← hTrow i hi, ← hrowlen]; exact hj
    show entry (pad U) i j = entry T i j
    cases i with
    | zero =>
      rw [entry_thinned_border g hrect 0 j (by omega) hjlt (by omega)]
      unfold entry
      rw [getD_pad_zero, getD_replicate_self, hUcols, if_pos hjlt]
    | succ k =>
      rcases Nat.lt_or_ge k g.length with hk | hk
      · cases j with
        | zero =>
          rw [entry_thinned_border g hrect (k + 1) 0 hi hjlt (by omega)]
          unfold entry
          rw [getD_pad_mid U k (by omega)]
          rfl
        | succ m =>
          rcases Nat.lt_or_ge m (colsOf g) with hm | hm
          · rw [entry_pad_mid U hUrect k m (by omega) (by omega)]
            rw [hU, entry_unpad _ _ _ k m hk hm]
          · have hmv : m = colsOf g := by omega
            subst hmv
            rw [entry_thinned_border g hrect (k + 1) (colsOf g + 1) hi hjlt (by omega)]
            unfold entry
            rw [getD_pad_mid U k (by omega), List.getD_cons_succ]
            rw [getD_append_right_of_le _ _ _ _ (le_of_eq (hUrow k hk))]
            rw [hUrow k hk]
            simp
      · have hkv : k = g.length := by omega
        subst hkv
        rw [entry_thinned_border g hrect (g.length + 1) j hi hjlt (by omega)]
        unfold entry
        rw [← hUlen, getD_pad_last, getD_replicate_self, hUcols, if_pos hjlt]

/-- The fixpoint property of `skeletonize`: dimensions are preserved,
foreground only shrinks, and a second run changes nothing. -/
theorem skeletonize_length (g : Grid) : (skeletonize g).length = g.length := by
  unfold skeletonize
  split
  · rfl
  · rw [length_unpad]

theorem skeletonize_rowlen (g : Grid) (hrect : IsRect g) (i : Nat)
    (hi : i < g.length) :
    ((skeletonize g).getD i []).length = colsOf g := by
  unfold skeletonize
  split
  · omega
  · exact rowlen_unpad _ _ _ i hi (thinned_rowlen g hrect (i + 1) (by omega))

theorem skeletonize_colsOf (g : Grid) (hrect : IsRect g) (hrows : 0 < g.length) :
    colsOf (skeletonize g) = colsOf g := by
  rw [colsOf_eq_rowlen_zero]
  exact skeletonize_rowlen g hrect 0 hrows

theorem skeletonize_isRect (g : Grid) (hrect : IsRect g) :
    IsRect (skeletonize g) := by
  intro row hrow
  obtain ⟨k, hk, rfl⟩ := List.getElem_of_mem hrow
  have hk2 : k < g.length := by
    have := skeletonize_length g
    omega
  have hrows : 0 < g.length := by omega
  have : (skeletonize g)[k] = (skeletonize g).getD k [] := by
    rw [List.getD_eq_getElem?_getD, List.getElem?_eq_getElem hk]
    rfl
  rw [this, skeletonize_rowlen g hrect k hk2, skeletonize_colsOf g hrect hrows]

/-- The skeleton's foreground is a subset of the input's foreground. -/
theorem getPixel_skeletonize_le (g : Grid) (hrect : IsRect g) (r c : Int) :
    getPixel (skeletonize g) r c ≤ getPixel g r c := by
  by_cases hz : g.length = 0
  · unfold skeletonize
    rw [if_pos hz]
  · unfold skeletonize
    rw [if_neg hz]
    set T := zhang_suen_thinning (pad g) with hT
    by_cases hin : 0 ≤ r ∧ r < (rowsOf (unpad g.length (colsOf g) T) : Int)
        ∧ 0 ≤ c ∧ c < (colsOf (unpad g.length (colsOf g) T) : Int)
    · have hrows : 0 < g.length := by omega
      have hUcols : colsOf (unpad g.length (colsOf g) T) = colsOf g :=
        colsOf_unpad _ _ _ hrows (thinned_rowlen g hrect 1 (by omega))
      have hUlen : (unpad g.length (colsOf g) T).length = g.length :=
        length_unpad _ _ _
      obtain ⟨h1, h2, h3, h4⟩ := hin
      have hrn : r.toNat < g.length := by
        unfold rowsOf at h2; rw [hUlen] at h2; omega
      have hcn : c.toNat < colsOf g := by
        rw [hUcols] at h4; omega
      have hrv : r = (r.toNat : Int) := by omega
      have hcv : c = (c.toNat : Int) := by omega
      rw [hrv, hcv]
      rw [getPixel_natCast _ _ _ (by omega : r.toNat < (unpad g.length (colsOf g) T).length) (by omega : c.toNat < colsOf (unpad g.length (colsOf g) T))]
      rw [getPixel_natCast _ _ _ hrn hcn]
      rw [entry_unpad _ _ _ _ _ hrn hcn]
      have e1 : entry T (r.toNat + 1) (c.toNat + 1)
          = getPixel T ((r.toNat + 1 : Nat) : Int) ((c.toNat + 1 : Nat) : Int) := by
        rw [getPixel_natCast T _ _ (by rw [thinned_length]; omega)
          (by rw [thinned_colsOf g hrect]; omega)]
      have e2 : getPixel (pad g) ((r.toNat + 1 : Nat) : Int) ((c.toNat + 1 : Nat) : Int)
          = entry (pad g) (r.toNat + 1) (c.toNat + 1) := by
        rw [getPixel_natCast (pad g) _ _ (by rw [length_pad]; omega)
          (by rw [colsOf_pad]; omega)]
      have e3 : entry (pad g) (r.toNat + 1) (c.toNat + 1) = entry g r.toNat c.toNat :=
        entry_pad_mid g hrect _ _ hrn hcn
      rw [e1]
      calc getPixel T ((r.toNat + 1 : Nat) : Int) ((c.toNat + 1 : Nat) : Int)
          ≤ getPixel (pad g) ((r.toNat + 1 : Nat) : Int) ((c.toNat + 1 : Nat) : Int) :=
            getPixel_zhang_suen_le (pad g) _ _
        _ = entry g r.toNat c.toNat := by rw [e2, e3]
    · have : getPixel (unpad g.length (colsOf g) T) r c = 0 := by
        unfold getPixel
        rw [if_neg (by tauto)]
      rw [this]
      exact Nat.zero_le _

/-- `skeletonize` is idempotent. -/
theorem skeletonize_idem (g : Grid) (hrect : IsRect g) :
    skeletonize (skeletonize g) = skeletonize g := by
  by_cases hz : g.length = 0
  · have hg : skeletonize g = g := by unfold skeletonize; rw [if_pos hz]
    rw [hg, hg]
  · have hrows : 0 < g.length := by omega
    have hsk : skeletonize g = unpad g.length (colsOf g) (zhang_suen_thinning (pad g)) := by
      unfold skeletonize; rw [if_neg hz]
    set T := zhang_suen_thinning (pad g) with hT
    set U := unpad g.length (colsOf g) T with hU
    have hUlen : U.length = g.length := length_unpad _ _ _
    have hUcols : colsOf U = colsOf g :=
      colsOf_unpad _ _ _ hrows (thinned_rowlen g hrect 1 (by omega))
    have hpadU : pad U = T := pad_unpad_thinned g hrect hrows
    have hTfix : zhang_suen_thinning T = T :=
      zhang_suen_fix T (zhang_suen_done (pad g))
    rw [hsk]
    unfold skeletonize
    rw [if_neg (by rw [hUlen]; omega)]
    rw [hUlen, hUcols, hpadU, hTfix]

/-! ### The all-background grid -/

/-- An all-background grid of `h` rows and `w` columns. -/
def zeroGrid (h w : Nat) : Grid := List.replicate h (List.replicate w 0)

theorem entry_zeroGrid (h w i j : Nat) : entry (zeroGrid h w) i j = 0 := by
  unfold entry zeroGrid
  rw [getD_replicate_self]
  split
  · rw [getD_replicate_self]
    split <;> rfl
  · rfl

theorem getPixel_zeroGrid (h w : Nat) (r c : Int) :
    getPixel (zeroGrid h w) r c = 0 := by
  unfold getPixel
  split
  · exact entry_zeroGrid h w _ _
  · rfl

theorem toDelete1_of_allZero (g : Grid) (h : ∀ r c : Int, getPixel g r c = 0) :
    toDelete1 g = [] := by
  rw [List.eq_nil_iff_forall_not_mem]
  rintro ⟨r, c⟩ hmem
  exact ((mem_toDelete1 g r c).mp hmem).2.2.2.2.1 (h r c)

theorem toDelete2_of_allZero (g : Grid) (h : ∀ r c : Int, getPixel g r c = 0) :
    toDelete2 g = [] := by
  rw [List.eq_nil_iff_forall_not_mem]
  rintro ⟨r, c⟩ hmem
  exact ((mem_toDelete2 g r c).mp hmem).2.2.2.2.1 (h r c)

theorem zhang_suen_of_allZero (g : Grid) (h : ∀ r c : Int, getPixel g r c = 0) :
    zhang_suen_thinning g = g := by
  apply zhang_suen_fix
  constructor
  · exact toDelete1_of_allZero g h
  · have : zsStep1 g = g := by
      unfold zsStep1
      rw [toDelete1_of_allZero g h, applyDel_nil]
    rw [this]
    exact toDelete2_of_allZero g h

theorem colsOf_zeroGrid (h w : Nat) (hh : 0 < h) : colsOf (zeroGrid h w) = w := by
  unfold colsOf zeroGrid
  cases h with
  | zero => omega
  | succ n => simp [List.replicate]

theorem pad_zeroGrid (h w : Nat) (hh : 0 < h) :
    pad (zeroGrid h w) = zeroGrid (h + 2) (w + 2) := by
  unfold pad
  rw [colsOf_zeroGrid h w hh]
  unfold zeroGrid
  rw [List.map_replicate]
  have hrow : (0 : Nat) :: (List.replicate w 0 ++ [0]) = List.replicate (w + 2) 0 := by
    rw [← List.replicate_succ' w (0 : Nat)]
    rw [← List.replicate_succ (0 : Nat) (w + 1)]
  rw [hrow]
  rw [← List.replicate_succ', ← List.replicate_succ]

theorem unpad_zeroGrid (h w : Nat) :
    unpad h w (zeroGrid (h + 2) (w + 2)) = zeroGrid h w := by
  unfold unpad zeroGrid
  rw [List.eq_replicate_iff]
  refine ⟨by simp, ?_⟩
  intro b hb
  rw [List.mem_map] at hb
  obtain ⟨i, hi, rfl⟩ := hb
  rw [List.mem_range] at hi
  rw [getD_replicate_self, if_pos (by omega)]
  rw [show w + 2 = (w + 1) + 1 by omega, List.replicate_succ]
  rw [List.drop_one, List.tail_cons]
  rw [List.replicate_succ' w (0 : Nat)]
  rw [List.take_append_of_le_length (by rw [List.length_replicate])]
  rw [List.take_replicate, min_self]

/-- `skeletonize` of a non-empty all-background grid is that grid. -/
theorem skeletonize_zeroGrid (h w : Nat) (hh : 0 < h) :
    skeletonize (zeroGrid h w) = zeroGrid h w := by
  unfold skeletonize
  rw [if_neg (by unfold zeroGrid; simp; omega)]
  rw [pad_zeroGrid h w hh]
  rw [zhang_suen_of_allZero _ (getPixel_zeroGrid (h + 2) (w + 2))]
  have hlen : (zeroGrid h w).length = h := by unfold zeroGrid; simp
  rw [hlen, colsOf_zeroGrid h w hh]
  exact unpad_zeroGrid h w

/-! ### Path smoothing (`smooth_path` of `skeleton_utils.py`) -/

/-- A 2-D point with exact rational coordinates. -/
abbrev Pt := ℚ × ℚ

/-- One smoothing round: keep the first and last points, replace every
interior point by the 1:2:1 weighted average of itself and its two
neighbours. -/
def smoothOnce (p : List Pt) : List Pt :=
  p.headD (0, 0) ::
    ((List.range (p.length - 2)).map (fun i =>
      let p0 := p.getD i (0, 0)
      let p1 := p.getD (i + 1) (0, 0)
      let p2 := p.getD (i + 2) (0, 0)
      ((p0.1 + 2 * p1.1 + p2.1) / 4, (p0.2 + 2 * p1.2 + p2.2) / 4))
    ++ [p.getLastD (0, 0)])

/-- `smooth_path(path, iterations)`: paths of fewer than 3 points are
returned unchanged, otherwise the smoothing round is applied
`iterations` times in sequence. -/
def smooth_path (p : List Pt) (iterations : Nat) : List Pt :=
  if p.length < 3 then p else smoothOnce^[iterations] p

theorem length_smoothOnce (p : List Pt) (h : 2 ≤ p.length) :
    (smoothOnce p).length = p.length := by
  unfold smoothOnce
  simp only [List.length_cons, List.length_append, List.length_map,
    List.length_range, List.length_singleton, List.length_nil]
  omega

theorem length_smoothOnce_iterate (p : List Pt) (k : Nat) (h : 2 ≤ p.length) :
    (smoothOnce^[k] p).length = p.length := by
  induction k generalizing p with
  | zero => rfl
  | succ n ih =>
    rw [Function.iterate_succ_apply]
    rw [ih (smoothOnce p) (by rw [length_smoothOnce p h]; exact h)]
    exact length_smoothOnce p h

theorem length_smooth_path (p : List Pt) (k : Nat) :
    (smooth_path p k).length = p.length := by
  unfold smooth_path
  split
  · rfl
  · exact length_smoothOnce_iterate p k (by omega)

/-- With three or more points, the default three iterations are exactly
three sequential smoothing rounds. -/
theorem smooth_path_three (p : List Pt) (h : 3 ≤ p.length) :
    smooth_path p 3 = smoothOnce (smoothOnce (smoothOnce p)) := by
  unfold smooth_path
  rw [if_neg (by omega)]
  rfl

/-! ### Skeleton tracing (`trace_skeleton` of `skeleton_utils.py`) -/

/-- A skeleton pixel, identified by `(row, col)`. -/
abbrev Node := Int × Int

/-- An unordered pixel adjacency, stored as a sorted pair. -/
abbrev Edge := Node × Node

/-- `get_neighbors` of `trace_skeleton`: the in-range foreground
8-neighbours of `(r, c)`, enumerated by the row-major double loop
`for dr in [-1, 0, 1]: for dc in [-1, 0, 1]` that skips `(0, 0)`. -/
def traceGetNeighbors (skel : Grid) (r c : Int) : List Node :=
  ([-1, 0, 1] : List Int).flatMap (fun dr =>
    ([-1, 0, 1] : List Int).filterMap (fun dc =>
      if dr = 0 ∧ dc = 0 then none
      else if getPixel skel (r + dr) (c + dc) = 1 then some (r + dr, c + dc)
      else none))

/-- The foreground pixels in row-major scan order (the `nodes` list). -/
def traceNodes (skel : Grid) : List Node :=
  (List.range skel.length).flatMap (fun r =>
    (List.range (colsOf skel)).filterMap (fun c =>
      if getPixel skel r c = 1 then some ((r : Int), (c : Int)) else none))

/-- Node degree: number of foreground 8-neighbours. -/
def degreeOf (skel : Grid) (n : Node) : Nat :=
  (traceGetNeighbors skel n.1 n.2).length

/-- Nodes of degree 1. -/
def endpointsOf (skel : Grid) : List Node :=
  (traceNodes skel).filter (fun n => degreeOf skel n == 1)

/-- Nodes of degree other than 1 and 2 (degree-0 pixels included). -/
def junctionsOf (skel : Grid) : List Node :=
  (traceNodes skel).filter (fun n => degreeOf skel n != 2 && degreeOf skel n != 1)

/-- The endpoint set after the pure-loop rule: when there is no endpoint
and no junction at all, the first node is added as a synthetic endpoint. -/
def startEndpoints (skel : Grid) : List Node :=
  if endpointsOf skel = [] ∧ junctionsOf skel = [] ∧ traceNodes skel ≠ [] then
    [(traceNodes skel).headD (0, 0)]
  else endpointsOf skel

/-- `start_nodes = list(endpoints) + list(junctions)`, with the dead
fallback `if not start_nodes and nodes` kept for faithfulness. -/
def startNodes (skel : Grid) : List Node :=
  let s := startEndpoints skel ++ junctionsOf skel
  if s = [] ∧ traceNodes skel ≠ [] then [(traceNodes skel).headD (0, 0)] else s

/-- Lexicographic comparison used by Python `sorted` on coordinate pairs. -/
def nodeLe (a b : Node) : Bool :=
  decide (a.1 < b.1) || (decide (a.1 = b.1) && decide (a.2 ≤ b.2))

def nodeLt (a b : Node) : Bool :=
  decide (a.1 < b.1) || (decide (a.1 = b.1) && decide (a.2 < b.2))

/-- `tuple(sorted((a, b)))`: the unordered edge in normalised order. -/
def normEdge (a b : Node) : Edge := if nodeLe a b then (a, b) else (b, a)

/-- The inner `while True` walk of `trace_skeleton`, with explicit fuel.
Each iteration either stops or consumes one unvisited edge, so any fuel
larger than the number of edges is sufficient; all theorems below hold
for every fuel. -/
def walkLoop (skel : Grid) (junc endp : List Node) (startN : Node) :
    Nat → List Edge → Node → Node → List Node → (List Node × List Edge)
  | 0, visited, _, _, path => (path, visited)
  | fuel + 1, visited, prev, curr, path =>
    if curr ∈ junc ∨ curr ∈ endp then (path, visited)
    else
      match (traceGetNeighbors skel curr.1 curr.2).find? (fun n => n != prev) with
      | none => (path, visited)
      | some next =>
        let e := normEdge curr next
        if e ∈ visited then (path, visited)
        else
          let path2 := path ++ [next]
          let visited2 := e :: visited
          if next = startN then (path2, visited2)
          else walkLoop skel junc endp startN fuel visited2 curr next path2

/-- One iteration of the `for neighbor in graph[start_node]` loop: skip a
visited incident edge, otherwise walk from it and append the finalised
path.  `f` is the per-path post-processing applied where the Python code
smooths (identity recovers the raw pixel paths). -/
def traceStep {α : Type} (skel : Grid) (junc endp : List Node) (fuel : Nat)
    (f : List Node → α) (startN : Node) (st2 : List Edge × List α) (nb : Node) :
    List Edge × List α :=
  let e := normEdge startN nb
  if e ∈ st2.1 then st2
  else
    let res := walkLoop skel junc endp startN fuel (e :: st2.1) startN nb
      [startN, nb]
    (res.2, st2.2 ++ [f res.1])

/-- Process one start node: walk every incident unvisited edge. -/
def traceFromStart {α : Type} (skel : Grid) (junc endp : List Node) (fuel : Nat)
    (f : List Node → α) (st : List Edge × List α) (startN : Node) :
    List Edge × List α :=
  (traceGetNeighbors skel startN.1 startN.2).foldl
    (traceStep skel junc endp fuel f startN) st

/-- The whole tracing pass over a skeleton whose column count is known. -/
def traceAll {α : Type} (f : List Node → α) (skel : Grid) : List α :=
  if traceNodes skel = [] then []
  else
    (((startNodes skel).foldl
      (traceFromStart skel (junctionsOf skel) (startEndpoints skel)
        (8 * (traceNodes skel).length + 2) f) ([], []))).2

/-- Pixel `(r, c)` becomes the point `(x, y) = (c, r)`. -/
def nodeToXY (n : Node) : Pt := ((n.2 : ℚ), (n.1 : ℚ))

/-- Per-path finalisation: paths longer than 2 points are smoothed with
the default 3 iterations, shorter ones are returned as raw pixel
coordinates. -/
def finalizePath (p : List Node) : List Pt :=
  if 2 < p.length then smooth_path (p.map nodeToXY) 3 else p.map nodeToXY

/-- `trace_skeleton`: `none` models the `IndexError` that
`len(skeleton[0])` raises on a zero-row skeleton. -/
def trace_skeleton (skel : Grid) : Option (List (List Pt)) :=
  match skel with
  | [] => none
  | _ :: _ => some (traceAll finalizePath skel)

/-- The same trace with no smoothing: the raw pixel paths. -/
def traceRawPaths (skel : Grid) : List (List Node) := traceAll id skel

def trace_raw (skel : Grid) : Option (List (List Node)) :=
  match skel with
  | [] => none
  | _ :: _ => some (traceRawPaths skel)

/-- The traversed edges of one path: consecutive pairs, normalised. -/
def pathEdges (p : List Node) : List Edge :=
  (p.zip p.tail).map (fun ab => normEdge ab.1 ab.2)

/-- All 8-adjacent foreground pixel pairs of a skeleton, each unordered
pair listed exactly once (in normalised orientation). -/
def adjPairs (skel : Grid) : List Edge :=
  (traceNodes skel).flatMap (fun n =>
    (traceGetNeighbors skel n.1 n.2).filterMap (fun m =>
      if nodeLt n m then some (n, m) else none))

/-- The thinner's clockwise-from-north ring order (`P2 .. P9`), as
neighbour positions: the order `count_neighbors` reads the ring. -/
def ringOffsets : List (Int × Int) :=
  [(-1, 0), (-1, 1), (0, 1), (1, 1), (1, 0), (1, -1), (0, -1), (-1, -1)]

/-- The tracer's row-major enumeration order, flattened. -/
def rowMajorOffsets : List (Int × Int) :=
  [(-1, -1), (-1, 0), (-1, 1), (0, -1), (0, 1), (1, -1), (1, 0), (1, 1)]

/-- Foreground neighbours enumerated in the thinner's clockwise ring
order (what the spec says the tracer uses). -/
def ringNeighbors (skel : Grid) (r c : Int) : List Node :=
  ringOffsets.filterMap (fun d =>
    if getPixel skel (r + d.1) (c + d.2) = 1 then some (r + d.1, c + d.2)
    else none)

/-! ### The trace is post-processing applied to the raw pixel paths -/

section TraceMap

variable {α : Type} (skel : Grid) (junc endp : List Node) (fuel : Nat)

theorem walkLoop_zero (startN : Node) (v : List Edge) (prev curr : Node)
    (path : List Node) :
    walkLoop skel junc endp startN 0 v prev curr path = (path, v) := rfl

theorem walkLoop_succ (startN : Node) (f2 : Nat) (v : List Edge)
    (prev curr : Node) (path : List Node) :
    walkLoop skel junc endp startN (f2 + 1) v prev curr path =
      if curr ∈ junc ∨ curr ∈ endp then (path, v)
      else
        match (traceGetNeighbors skel curr.1 curr.2).find? (fun n => n != prev) with
        | none => (path, v)
        | some next =>
          let e := normEdge curr next
          if e ∈ v then (path, v)
          else if next = startN then (path ++ [next], e :: v)
          else walkLoop skel junc endp startN f2 (e :: v) curr next (path ++ [next]) :=
  rfl

theorem traceStep_map (f : List Node → α) (startN nb : Node) (v : List Edge)
    (lid : List (List Node)) :
    traceStep skel junc endp fuel f startN (v, lid.map f) nb
      = ((traceStep skel junc endp fuel id startN (v, lid) nb).1,
         ((traceStep skel junc endp fuel id startN (v, lid) nb).2).map f) := by
  unfold traceStep
  by_cases h : normEdge startN nb ∈ v
  · simp [h]
  · simp [h, List.map_append]

theorem traceFold_map (f : List Node → α) (startN : Node) :
    ∀ (nbs : List Node) (v : List Edge) (lid : List (List Node)),
      nbs.foldl (traceStep skel junc endp fuel f startN) (v, lid.map f)
        = ((nbs.foldl (traceStep skel junc endp fuel id startN) (v, lid)).1,
           ((nbs.foldl (traceStep skel junc endp fuel id startN) (v, lid)).2).map f) := by
  intro nbs
  induction nbs with
  | nil => intro v lid; rfl
  | cons nb rest ih =>
    intro v lid
    rw [List.foldl_cons, List.foldl_cons]
    rw [traceStep_map skel junc endp fuel f startN nb v lid]
    exact ih _ _

theorem traceFromStart_map (f : List Node → α) (startN : Node) (v : List Edge)
    (lid : List (List Node)) :
    traceFromStart skel junc endp fuel f (v, lid.map f) startN
      = ((traceFromStart skel junc endp fuel id (v, lid) startN).1,
         ((traceFromStart skel junc endp fuel id (v, lid) startN).2).map f) := by
  unfold traceFromStart
  exact traceFold_map skel junc endp fuel f startN _ v lid

theorem traceStarts_map (f : List Node → α) :
    ∀ (starts : List Node) (v : List Edge) (lid : List (List Node)),
      starts.foldl (traceFromStart skel junc endp fuel f) (v, lid.map f)
        = ((starts.foldl (traceFromStart skel junc endp fuel id) (v, lid)).1,
           ((starts.foldl (traceFromStart skel junc endp fuel id) (v, lid)).2).map f) := by
  intro starts
  induction starts with
  | nil => intro v lid; rfl
  | cons s rest ih =>
    intro v lid
    rw [List.foldl_cons, List.foldl_cons]
    rw [traceFromStart_map skel junc endp fuel f s v lid]
    exact ih _ _

/-- The trace with post-processing `f` is the raw trace mapped through
`f`: walking never inspects the accumulated path list. -/
theorem traceAll_map (f : List Node → α) :
    traceAll f skel = (traceAll id skel).map f := by
  unfold traceAll
  split
  · rfl
  · have h := traceStarts_map skel (junctionsOf skel) (startEndpoints skel)
      (8 * (traceNodes skel).length + 2) f (startNodes skel) [] []
    simp only [List.map_nil] at h
    rw [h]

end TraceMap

/-! ### Every traced path has at least two points -/

theorem walkLoop_len (skel : Grid) (junc endp : List Node) (startN : Node) :
    ∀ (fuel : Nat) (v : List Edge) (prev curr : Node) (path : List Node),
      path.length ≤ (walkLoop skel junc endp startN fuel v prev curr path).1.length := by
  intro fuel
  induction fuel with
  | zero => intro v prev curr path; exact le_refl _
  | succ f2 ih =>
    intro v prev curr path
    rw [walkLoop_succ]
    split
    · exact le_refl _
    · split
      · exact le_refl _
      · rename_i next heq
        show path.length ≤ (if normEdge curr next ∈ v then (path, v)
          else if next = startN then (path ++ [next], normEdge curr next :: v)
          else walkLoop skel junc endp startN f2 (normEdge curr next :: v) curr next
            (path ++ [next])).1.length
        split
        · exact le_refl _
        · split
          · simp
          · calc path.length ≤ (path ++ [next]).length := by simp
              _ ≤ _ := ih _ _ _ _

theorem traceStep_len {α : Type} (skel : Grid) (junc endp : List Node)
    (fuel : Nat) (f : List Node → α) (lenOf : α → Nat)
    (hf : ∀ p : List Node, lenOf (f p) = p.length)
    (startN nb : Node) (v : List Edge) (acc : List α)
    (hacc : ∀ q ∈ acc, 2 ≤ lenOf q) :
    ∀ q ∈ (traceStep skel junc endp fuel f startN (v, acc) nb).2, 2 ≤ lenOf q := by
  unfold traceStep
  by_cases h : normEdge startN nb ∈ v
  · simpa [h] using hacc
  · simp only [h, if_false]
    intro q hq
    simp only [List.mem_append, List.mem_singleton] at hq
    rcases hq with hq | rfl
    · exact hacc q hq
    · rw [hf]
      calc 2 = ([startN, nb] : List Node).length := rfl
        _ ≤ _ := walkLoop_len skel junc endp startN fuel _ _ _ _

theorem traceFold_len {α : Type} (skel : Grid) (junc endp : List Node)
    (fuel : Nat) (f : List Node → α) (lenOf : α → Nat)
    (hf : ∀ p : List Node, lenOf (f p) = p.length) (startN : Node) :
    ∀ (nbs : List Node) (v : List Edge) (acc : List α),
      (∀ q ∈ acc, 2 ≤ lenOf q) →
      ∀ q ∈ (nbs.foldl (traceStep skel junc endp fuel f startN) (v, acc)).2,
        2 ≤ lenOf q := by
  intro nbs
  induction nbs with
  | nil => intro v acc hacc; exact hacc
  | cons nb rest ih =>
    intro v acc hacc
    rw [List.foldl_cons]
    rcases hst : traceStep skel junc endp fuel f startN (v, acc) nb with ⟨v2, acc2⟩
    have hacc2 : ∀ q ∈ acc2, 2 ≤ lenOf q := by
      intro q hq
      have := traceStep_len skel junc endp fuel f lenOf hf startN nb v acc hacc q
      rw [hst] at this
      exact this hq
    exact ih v2 acc2 hacc2

theorem traceStarts_len {α : Type} (skel : Grid) (junc endp : List Node)
    (fuel : Nat) (f : List Node → α) (lenOf : α → Nat)
    (hf : ∀ p : List Node, lenOf (f p) = p.length) :
    ∀ (starts : List Node) (v : List Edge) (acc : List α),
      (∀ q ∈ acc, 2 ≤ lenOf q) →
      ∀ q ∈ (starts.foldl (traceFromStart skel junc endp fuel f) (v, acc)).2,
        2 ≤ lenOf q := by
  intro starts
  induction starts with
  | nil => intro v acc hacc; exact hacc
  | cons s rest ih =>
    intro v acc hacc
    rw [List.foldl_cons]
    rcases hst : traceFromStart skel junc endp fuel f (v, acc) s with ⟨v2, acc2⟩
    have hacc2 : ∀ q ∈ acc2, 2 ≤ lenOf q := by
      intro q hq
      have := traceFold_len skel junc endp fuel f lenOf hf s
        (traceGetNeighbors skel s.1 s.2) v acc hacc q
      unfold traceFromStart at hst
      rw [hst] at this
      exact this hq
    exact ih v2 acc2 hacc2

/-- Every path the tracer emits has at least two points: each path starts
as `[start_node, neighbor]` and only ever grows. -/
theorem traceAll_len {α : Type} (skel : Grid) (f : List Node → α)
    (lenOf : α → Nat) (hf : ∀ p : List Node, lenOf (f p) = p.length) :
    ∀ q ∈ traceAll f skel, 2 ≤ lenOf q := by
  unfold traceAll
  split
  · intro q hq; simp at hq
  · exact traceStarts_len skel _ _ _ f lenOf hf _ [] [] (by intro q hq; simp at hq)

/-! ### No adjacency pair is ever traced twice -/

theorem pathEdges_cons_cons (a b : Node) (l : List Node) :
    pathEdges (a :: b :: l) = normEdge a b :: pathEdges (b :: l) := rfl

theorem getLastD_snoc (p : List Node) (x : Node) :
    ∀ d : Node, (p ++ [x]).getLastD d = x := by
  induction p with
  | nil => intro d; rfl
  | cons a rest ih =>
    intro d
    have : (a :: rest) ++ [x] = a :: (rest ++ [x]) := rfl
    rw [this, List.getLastD_cons, ih a]

theorem pathEdges_snoc (p : List Node) (x : Node) (h : p ≠ []) :
    ∀ d : Node, pathEdges (p ++ [x]) = pathEdges p ++ [normEdge (p.getLastD d) x] := by
  induction p with
  | nil => exact absurd rfl h
  | cons a rest ih =>
    intro d
    cases rest with
    | nil => rfl
    | cons b rest2 =>
      have h1 : (a :: b :: rest2) ++ [x] = a :: b :: (rest2 ++ [x]) := rfl
      rw [h1, pathEdges_cons_cons]
      have h2 : (b :: rest2) ++ [x] = b :: (rest2 ++ [x]) := rfl
      rw [← h2, ih (by simp) a]
      rw [pathEdges_cons_cons]
      simp only [List.getLastD_cons]
      have hne2 : (b :: rest2) ≠ [] := by simp
      obtain ⟨y, hy⟩ := Option.isSome_iff_exists.mp (List.getLast?_isSome.mpr hne2)
      simp [List.getLastD_eq_getLast?, hy]

/-- The walk grows the path and the visited set in lockstep: the new
visited edges are exactly the path's new traversed edges, each fresh. -/
theorem walkLoop_edges (skel : Grid) (junc endp : List Node) (startN : Node) :
    ∀ (fuel : Nat) (v : List Edge) (prev curr : Node) (path : List Node),
      v.Nodup → path ≠ [] → path.getLastD (0, 0) = curr →
      ∃ E : List Edge,
        pathEdges (walkLoop skel junc endp startN fuel v prev curr path).1
          = pathEdges path ++ E ∧
        (walkLoop skel junc endp startN fuel v prev curr path).2 = E.reverse ++ v ∧
        (E.reverse ++ v).Nodup := by
  intro fuel
  induction fuel with
  | zero =>
    intro v prev curr path hv _ _
    exact ⟨[], by simp [walkLoop_zero], by simp [walkLoop_zero], by simpa using hv⟩
  | succ f2 ih =>
    intro v prev curr path hv hne hlast
    rw [walkLoop_succ]
    split
    · exact ⟨[], by simp, by simp, by simpa using hv⟩
    · split
      · exact ⟨[], by simp, by simp, by simpa using hv⟩
      · rename_i next hfind
        show ∃ E,
          pathEdges (if normEdge curr next ∈ v then (path, v)
            else if next = startN then (path ++ [next], normEdge curr next :: v)
            else walkLoop skel junc endp startN f2 (normEdge curr next :: v) curr next
              (path ++ [next])).1 = pathEdges path ++ E ∧ _
        by_cases hmem : normEdge curr next ∈ v
        · rw [if_pos hmem]
          exact ⟨[], by simp, by simp, by simpa using hv⟩
        · rw [if_neg hmem]
          have hpe2 : pathEdges (path ++ [next])
              = pathEdges path ++ [normEdge curr next] := by
            rw [pathEdges_snoc path next hne (0, 0), hlast]
          have hv2 : (normEdge curr next :: v).Nodup := by
            simp [hv, hmem]
          by_cases hstart : next = startN
          · rw [if_pos hstart]
            refine ⟨[normEdge curr next], by simpa using hpe2, by simp, ?_⟩
            simpa using hv2
          · rw [if_neg hstart]
            obtain ⟨E1, he1, he2, he3⟩ := ih (normEdge curr next :: v) curr next
              (path ++ [next]) hv2 (by simp) (getLastD_snoc path next (0, 0))
            refine ⟨normEdge curr next :: E1, ?_, ?_, ?_⟩
            · rw [he1, hpe2, List.append_assoc]
              rfl
            · rw [he2]
              rw [List.reverse_cons, List.append_assoc]
              rfl
            · rw [List.reverse_cons, List.append_assoc]
              simpa using he3

/-- Invariant carried through the trace: visited edges are distinct, and
the edges of the emitted paths are distinct and all marked visited. -/
def TraceInv (st : List Edge × List (List Node)) : Prop :=
  st.1.Nodup ∧ (∀ e ∈ st.2.flatMap pathEdges, e ∈ st.1)
    ∧ (st.2.flatMap pathEdges).Nodup

theorem traceStep_inv (skel : Grid) (junc endp : List Node) (fuel : Nat)
    (startN nb : Node) (st : List Edge × List (List Node)) (h : TraceInv st) :
    TraceInv (traceStep skel junc endp fuel id startN st nb) := by
  obtain ⟨v, acc⟩ := st
  obtain ⟨hv, hsub, hnd⟩ := h
  unfold traceStep
  by_cases hmem : normEdge startN nb ∈ v
  · simpa [hmem] using ⟨hv, hsub, hnd⟩
  · simp only [hmem, if_false, id_eq]
    have hv2 : (normEdge startN nb :: v).Nodup := by simp [hv, hmem]
    obtain ⟨E, hpe, hvis, hnd2⟩ := walkLoop_edges skel junc endp startN fuel
      (normEdge startN nb :: v) startN nb [startN, nb] hv2 (by simp) rfl
    have hpe0 : pathEdges [startN, nb] = [normEdge startN nb] := rfl
    rw [hpe0] at hpe
    have hflat : (acc ++ [(walkLoop skel junc endp startN fuel
        (normEdge startN nb :: v) startN nb [startN, nb]).1]).flatMap pathEdges
        = acc.flatMap pathEdges ++ (normEdge startN nb :: E) := by
      rw [List.flatMap_append]
      simp only [List.flatMap_cons, List.flatMap_nil, List.append_nil]
      rw [hpe]
      rfl
    have hEdisj : ∀ x ∈ normEdge startN nb :: E, x ∉ v := by
      intro x hx
      rcases List.mem_cons.mp hx with rfl | hx2
      · exact hmem
      · rw [List.nodup_append] at hnd2
        intro hxv
        exact hnd2.2.2 (by simpa using hx2) (by simp [hxv])
    have hEnodup : (normEdge startN nb :: E).Nodup := by
      rw [List.nodup_append] at hnd2
      rw [List.nodup_cons]
      constructor
      · intro hxe
        exact hnd2.2.2 (by simpa using hxe) (by simp)
      · simpa using hnd2.1
    refine ⟨?_, ?_, ?_⟩
    · rw [hvis] at *
      exact hnd2
    · intro ed hed
      rw [hflat] at hed
      rw [hvis]
      rcases List.mem_append.mp hed with hed | hed
      · have := hsub ed hed
        simp [this]
      · rcases List.mem_cons.mp hed with rfl | hed2
        · simp
        · simp [List.mem_reverse.mpr hed2]
    · rw [hflat]
      rw [List.nodup_append]
      refine ⟨hnd, hEnodup, ?_⟩
      intro x hx hx2
      exact hEdisj x hx2 (hsub x hx)

theorem traceFold_inv (skel : Grid) (junc endp : List Node) (fuel : Nat)
    (startN : Node) :
    ∀ (nbs : List Node) (st : List Edge × List (List Node)),
      TraceInv st →
      TraceInv (nbs.foldl (traceStep skel junc endp fuel id startN) st) := by
  intro nbs
  induction nbs with
  | nil => intro st h; exact h
  | cons nb rest ih =>
    intro st h
    rw [List.foldl_cons]
    exact ih _ (traceStep_inv skel junc endp fuel startN nb st h)

theorem traceStarts_inv (skel : Grid) (junc endp : List Node) (fuel : Nat) :
    ∀ (starts : List Node) (st : List Edge × List (List Node)),
      TraceInv st →
      TraceInv (starts.foldl (traceFromStart skel junc endp fuel id) st) := by
  intro starts
  induction starts with
  | nil => intro st h; exact h
  | cons s rest ih =>
    intro st h
    rw [List.foldl_cons]
    exact ih _ (traceFold_inv skel junc endp fuel s _ st h)

/-- No-duplication: across the whole output of one trace, every traversed
edge appears exactly once. -/
theorem traceAll_edges_nodup (skel : Grid) :
    ((traceAll id skel).flatMap pathEdges).Nodup := by
  unfold traceAll
  split
  · simp
  · have := traceStarts_inv skel (junctionsOf skel) (startEndpoints skel)
      (8 * (traceNodes skel).length + 2) (startNodes skel) ([], [])
      ⟨by simp, by simp, by simp⟩
    exact this.2.2

/-! ### The tracer's neighbour enumeration order -/

theorem filterMap_sublist_map {β γ : Type} (f : β → Option γ) (g : β → γ)
    (h : ∀ x, f x = none ∨ f x = some (g x)) :
    ∀ l : List β, (l.filterMap f).Sublist (l.map g) := by
  intro l
  induction l with
  | nil => simp
  | cons x xs ih =>
    rcases h x with hx | hx
    · rw [List.filterMap_cons_none hx, List.map_cons]
      exact ih.cons _
    · rw [List.filterMap_cons_some hx, List.map_cons]
      exact ih.cons₂ _

/-- Membership in the tracer's neighbour list: exactly the foreground
8-neighbours. -/
theorem mem_traceGetNeighbors (skel : Grid) (r c : Int) (p : Node) :
    p ∈ traceGetNeighbors skel r c ↔
      (getPixel skel p.1 p.2 = 1 ∧ p ≠ (r, c)
        ∧ (p.1 - r).natAbs ≤ 1 ∧ (p.2 - c).natAbs ≤ 1) := by
  obtain ⟨p1, p2⟩ := p
  dsimp only
  unfold traceGetNeighbors
  simp only [List.mem_flatMap, List.mem_filterMap]
  constructor
  · rintro ⟨dr, hdr, dc, hdc, hif⟩
    simp only [List.mem_cons, List.not_mem_nil, or_false] at hdr hdc
    by_cases h0 : dr = 0 ∧ dc = 0
    · rw [if_pos h0] at hif
      exact absurd hif (by simp)
    · rw [if_neg h0] at hif
      by_cases hpix : getPixel skel (r + dr) (c + dc) = 1
      · rw [if_pos hpix] at hif
        have hp : r + dr = p1 ∧ c + dc = p2 := by
          have := Option.some_inj.mp hif
          rw [Prod.ext_iff] at this
          exact this
        refine ⟨?_, ?_, ?_, ?_⟩
        · rw [← hp.1, ← hp.2]; exact hpix
        · rw [Ne, Prod.ext_iff]
          dsimp only
          rintro ⟨he1, he2⟩
          exact h0 (by omega)
        · rcases hdr with rfl | rfl | rfl <;> omega
        · rcases hdc with rfl | rfl | rfl <;> omega
      · rw [if_neg hpix] at hif
        exact absurd hif (by simp)
  · rintro ⟨hpix, hne, h1, h2⟩
    rw [Ne, Prod.ext_iff] at hne
    dsimp only at hne
    refine ⟨p1 - r, ?_, p2 - c, ?_, ?_⟩
    · simp only [List.mem_cons, List.not_mem_nil, or_false]
      omega
    · simp only [List.mem_cons, List.not_mem_nil, or_false]
      omega
    · rw [if_neg (by omega : ¬ (p1 - r = 0 ∧ p2 - c = 0))]
      rw [show r + (p1 - r) = p1 by omega, show c + (p2 - c) = p2 by omega,
        if_pos hpix]

/-- The tracer enumerates neighbours as a subsequence of the fixed
row-major position order: top row left to right, then left/right, then
bottom row left to right. -/
theorem traceGetNeighbors_sublist (skel : Grid) (r c : Int) :
    (traceGetNeighbors skel r c).Sublist
      (rowMajorOffsets.map (fun d => (r + d.1, c + d.2))) := by
  have hchunk : ∀ dr : Int, ¬ dr = 0 →
      (([-1, 0, 1] : List Int).filterMap (fun dc =>
        if dr = 0 ∧ dc = 0 then none
        else if getPixel skel (r + dr) (c + dc) = 1 then some (r + dr, c + dc)
        else none)).Sublist
      (([-1, 0, 1] : List Int).map (fun dc => (r + dr, c + dc))) := by
    intro dr hdr
    apply filterMap_sublist_map
    intro dc
    rw [if_neg (by tauto)]
    by_cases hpix : getPixel skel (r + dr) (c + dc) = 1
    · right; rw [if_pos hpix]
    · left; rw [if_neg hpix]
  have f0mid : (fun dc : Int =>
      if (0 : Int) = 0 ∧ dc = 0 then none
      else if getPixel skel (r + 0) (c + dc) = 1 then some ((r + 0, c + dc) : Node)
      else none) 0 = none := by norm_num
  have hprop : ∀ dc : Int,
      (fun dc : Int =>
        if (0 : Int) = 0 ∧ dc = 0 then none
        else if getPixel skel (r + 0) (c + dc) = 1 then some ((r + 0, c + dc) : Node)
        else none) dc = none ∨
      (fun dc : Int =>
        if (0 : Int) = 0 ∧ dc = 0 then none
        else if getPixel skel (r + 0) (c + dc) = 1 then some ((r + 0, c + dc) : Node)
        else none) dc = some ((fun dc : Int => ((r + 0, c + dc) : Node)) dc) := by
    intro dc
    by_cases hz : dc = 0
    · subst hz
      left
      exact f0mid
    · dsimp only
      rw [if_neg (by tauto)]
      by_cases hpix : getPixel skel (r + 0) (c + dc) = 1
      · right; rw [if_pos hpix]
      · left; rw [if_neg hpix]
  have hchunk0 :
      (([-1, 0, 1] : List Int).filterMap (fun dc =>
        if (0 : Int) = 0 ∧ dc = 0 then none
        else if getPixel skel (r + 0) (c + dc) = 1 then some (r + 0, c + dc)
        else none)).Sublist
      (([-1, 1] : List Int).map (fun dc => (r + 0, c + dc))) := by
    have heq : (([-1, 0, 1] : List Int).filterMap (fun dc =>
        if (0 : Int) = 0 ∧ dc = 0 then none
        else if getPixel skel (r + 0) (c + dc) = 1 then some ((r + 0, c + dc) : Node)
        else none))
        = (([-1, 1] : List Int).filterMap (fun dc =>
        if (0 : Int) = 0 ∧ dc = 0 then none
        else if getPixel skel (r + 0) (c + dc) = 1 then some ((r + 0, c + dc) : Node)
        else none)) := by
      set f0 : Int → Option Node := (fun dc =>
        if (0 : Int) = 0 ∧ dc = 0 then none
        else if getPixel skel (r + 0) (c + dc) = 1 then some ((r + 0, c + dc) : Node)
        else none) with hf0def
      have f0mid2 : f0 0 = none := f0mid
      cases hfa : f0 (-1) with
      | none =>
        rw [List.filterMap_cons_none hfa, List.filterMap_cons_none f0mid2,
          List.filterMap_cons_none hfa]
      | some y =>
        rw [List.filterMap_cons_some hfa, List.filterMap_cons_none f0mid2,
          List.filterMap_cons_some hfa]
    rw [heq]
    exact filterMap_sublist_map _ _ hprop [-1, 1]
  unfold traceGetNeighbors
  have hexp : ([-1, 0, 1] : List Int).flatMap (fun dr =>
      ([-1, 0, 1] : List Int).filterMap (fun dc =>
        if dr = 0 ∧ dc = 0 then none
        else if getPixel skel (r + dr) (c + dc) = 1 then some (r + dr, c + dc)
        else none))
      = (([-1, 0, 1] : List Int).filterMap (fun dc =>
          if (-1 : Int) = 0 ∧ dc = 0 then none
          else if getPixel skel (r + -1) (c + dc) = 1 then some (r + -1, c + dc)
          else none))
        ++ ((([-1, 0, 1] : List Int).filterMap (fun dc =>
          if (0 : Int) = 0 ∧ dc = 0 then none
          else if getPixel skel (r + 0) (c + dc) = 1 then some (r + 0, c + dc)
          else none))
        ++ (([-1, 0, 1] : List Int).filterMap (fun dc =>
          if (1 : Int) = 0 ∧ dc = 0 then none
          else if getPixel skel (r + 1) (c + dc) = 1 then some (r + 1, c + dc)
          else none))) := by
    simp [List.flatMap_cons, List.flatMap_nil]
  rw [hexp]
  have htarget : rowMajorOffsets.map (fun d => ((r + d.1, c + d.2) : Node))
      = (([-1, 0, 1] : List Int).map (fun dc => (r + -1, c + dc)))
        ++ ((([-1, 1] : List Int).map (fun dc => (r + 0, c + dc)))
        ++ (([-1, 0, 1] : List Int).map (fun dc => (r + 1, c + dc)))) := by
    simp only [rowMajorOffsets, List.map_cons, List.map_nil]
    rfl
  rw [htarget]
  exact ((hchunk (-1) (by norm_num)).append (hchunk0.append (hchunk 1 (by norm_num))))

/-! ### Dot-mode marker placement (`create_skeleton_font.py`)

The Euclidean segment length `math.hypot` is irrational in general, so
the walk takes a length oracle `dist` as a parameter; every other
quantity is exact.  Markers are tracked in pixel space, mirroring
`placed_dots_px` (the list that drives the global dedup and corresponds
one-to-one with the emitted dots). -/

/-- Squared Euclidean distance (computed exactly by `add_dot_checked`). -/
def sqDist (p q : Pt) : ℚ := (p.1 - q.1) ^ 2 + (p.2 - q.2) ^ 2

/-- `min_dist_sq = (pixel_spacing * 0.6) ** 2`. -/
def minDistSq (pixelSpacing : ℚ) : ℚ := (pixelSpacing * (3 / 5)) ^ 2

/-- `add_dot_checked`: reject the candidate if it is too close to any
previously accepted marker, otherwise append it. -/
def addDotChecked (mds : ℚ) (placed : List Pt) (p : Pt) : List Pt × Bool :=
  if placed.any (fun e => decide (sqDist p e < mds)) then (placed, false)
  else (placed ++ [p], true)

/-- The `while current_d <= d` emission loop of the dot walk. -/
def dotWhile (mds spacing : ℚ) (p1 u : Pt) (d : ℚ) :
    Nat → ℚ → List Pt → (List Pt × ℚ)
  | 0, cd, placed => (placed, cd)
  | fuel + 1, cd, placed =>
    if cd ≤ d then
      dotWhile mds spacing p1 u d fuel (cd + spacing)
        (addDotChecked mds placed (p1.1 + u.1 * cd, p1.2 + u.2 * cd)).1
    else (placed, cd)

/-- `dist_acc = d - (current_d - pixel_spacing)` after the inner loop. -/
def dotSegFinish (spacing d : ℚ) (res : List Pt × ℚ) : List Pt × ℚ :=
  (res.1, d - (res.2 - spacing))

/-- The emitting part of one segment, entered when the needed distance
fits in the segment. -/
def dotSegRun (mds spacing : ℚ) (st : List Pt × ℚ) (pq : Pt × Pt) (d : ℚ) :
    List Pt × ℚ :=
  dotSegFinish spacing d
    (dotWhile mds spacing pq.1 ((pq.2.1 - pq.1.1) / d, (pq.2.2 - pq.1.2) / d) d
      (⌊(d - (spacing - st.2)) / spacing⌋ + 1).toNat (spacing - st.2) st.1)

/-- One segment of the dot walk (`for i in range(len(path) - 1)` body),
with the segment length `d` supplied by the oracle. -/
def dotSegAux (mds spacing : ℚ) (st : List Pt × ℚ) (pq : Pt × Pt) (d : ℚ) :
    List Pt × ℚ :=
  if d = 0 then st
  else if d < spacing - st.2 then (st.1, st.2 + d)
  else dotSegRun mds spacing st pq d

def dotSeg (dist : Pt → Pt → ℚ) (mds spacing : ℚ) (st : List Pt × ℚ)
    (pq : Pt × Pt) : List Pt × ℚ :=
  dotSegAux mds spacing st pq (dist pq.1 pq.2)

/-- One path of the dot walk: the first point is always submitted to
`add_dot_checked`, then the segments are walked with the distance
accumulator starting at 0. -/
def placeDotsPath (dist : Pt → Pt → ℚ) (mds spacing : ℚ) (placed : List Pt)
    (path : List Pt) : List Pt :=
  match path with
  | [] => placed
  | p0 :: _ =>
    ((path.zip path.tail).foldl (dotSeg dist mds spacing)
      ((addDotChecked mds placed p0).1, 0)).1

/-- The per-glyph dot placer: one shared `placed_dots_px` list across all
paths of the glyph. -/
def placeDots (dist : Pt → Pt → ℚ) (spacing : ℚ) (paths : List (List Pt)) :
    List Pt :=
  paths.foldl (placeDotsPath dist (minDistSq spacing) spacing) []

theorem addDotChecked_accept_iff (mds : ℚ) (placed : List Pt) (p : Pt) :
    (addDotChecked mds placed p).2 = true ↔ ∀ e ∈ placed, mds ≤ sqDist p e := by
  unfold addDotChecked
  by_cases h : placed.any (fun e => decide (sqDist p e < mds))
  · rw [if_pos h]
    simp only [List.any_eq_true, decide_eq_true_eq] at h
    obtain ⟨e, he, hlt⟩ := h
    constructor
    · intro hf
      exact Bool.noConfusion hf
    · intro hall
      exact absurd hlt (not_lt.mpr (hall e he))
  · rw [if_neg h]
    simp only [List.any_eq_true, decide_eq_true_eq] at h
    push_neg at h
    constructor
    · intro _ e he
      exact h e he
    · intro _
      rfl

theorem addDotChecked_fst (mds : ℚ) (placed : List Pt) (p : Pt) :
    ∃ t : List Pt, (addDotChecked mds placed p).1 = placed ++ t := by
  unfold addDotChecked
  split
  · exact ⟨[], by simp⟩
  · exact ⟨[p], rfl⟩

theorem dotWhile_fst (mds spacing : ℚ) (p1 u : Pt) (d : ℚ) :
    ∀ (fuel : Nat) (cd : ℚ) (placed : List Pt),
      ∃ t : List Pt, (dotWhile mds spacing p1 u d fuel cd placed).1 = placed ++ t := by
  intro fuel
  induction fuel with
  | zero => intro cd placed; exact ⟨[], by simp [dotWhile]⟩
  | succ f2 ih =>
    intro cd placed
    show ∃ t, (if cd ≤ d then dotWhile mds spacing p1 u d f2 (cd + spacing)
        (addDotChecked mds placed (p1.1 + u.1 * cd, p1.2 + u.2 * cd)).1
      else (placed, cd)).1 = placed ++ t
    split
    · obtain ⟨t1, ht1⟩ := addDotChecked_fst mds placed (p1.1 + u.1 * cd, p1.2 + u.2 * cd)
      obtain ⟨t2, ht2⟩ := ih (cd + spacing)
        (addDotChecked mds placed (p1.1 + u.1 * cd, p1.2 + u.2 * cd)).1
      exact ⟨t1 ++ t2, by rw [ht2, ht1, List.append_assoc]⟩
    · exact ⟨[], by simp⟩

theorem dotSeg_fst (dist : Pt → Pt → ℚ) (mds spacing : ℚ) (st : List Pt × ℚ)
    (pq : Pt × Pt) :
    ∃ t : List Pt, (dotSeg dist mds spacing st pq).1 = st.1 ++ t := by
  unfold dotSeg dotSegAux
  split
  · exact ⟨[], by simp⟩
  · split
    · exact ⟨[], by simp⟩
    · unfold dotSegRun dotSegFinish
      exact dotWhile_fst mds spacing pq.1 _ (dist pq.1 pq.2) _ _ st.1

theorem dotFold_fst (dist : Pt → Pt → ℚ) (mds spacing : ℚ) :
    ∀ (segs : List (Pt × Pt)) (st : List Pt × ℚ),
      ∃ t : List Pt, (segs.foldl (dotSeg dist mds spacing) st).1 = st.1 ++ t := by
  intro segs
  induction segs with
  | nil => intro st; exact ⟨[], by simp⟩
  | cons pq rest ih =>
    intro st
    rw [List.foldl_cons]
    obtain ⟨t1, ht1⟩ := dotSeg_fst dist mds spacing st pq
    obtain ⟨t2, ht2⟩ := ih (dotSeg dist mds spacing st pq)
    exact ⟨t1 ++ t2, by rw [ht2, ht1, List.append_assoc]⟩

theorem placeDotsPath_fst (dist : Pt → Pt → ℚ) (mds spacing : ℚ)
    (placed : List Pt) (path : List Pt) :
    ∃ t : List Pt, placeDotsPath dist mds spacing placed path = placed ++ t := by
  cases path with
  | nil => exact ⟨[], by simp [placeDotsPath]⟩
  | cons p0 rest =>
    show ∃ t, (((p0 :: rest).zip (p0 :: rest).tail).foldl (dotSeg dist mds spacing)
      ((addDotChecked mds placed p0).1, 0)).1 = placed ++ t
    obtain ⟨t1, ht1⟩ := addDotChecked_fst mds placed p0
    obtain ⟨t2, ht2⟩ := dotFold_fst dist mds spacing
      ((p0 :: rest).zip (p0 :: rest).tail) ((addDotChecked mds placed p0).1, 0)
    refine ⟨t1 ++ t2, ?_⟩
    rw [ht2]
    show (addDotChecked mds placed p0).1 ++ t2 = placed ++ (t1 ++ t2)
    rw [ht1, List.append_assoc]

theorem placeDotsFold_fst (dist : Pt → Pt → ℚ) (mds spacing : ℚ) :
    ∀ (paths : List (List Pt)) (placed : List Pt),
      ∃ t : List Pt,
        paths.foldl (placeDotsPath dist mds spacing) placed = placed ++ t := by
  intro paths
  induction paths with
  | nil => intro placed; exact ⟨[], by simp⟩
  | cons path rest ih =>
    intro placed
    rw [List.foldl_cons]
    obtain ⟨t1, ht1⟩ := placeDotsPath_fst dist mds spacing placed path
    obtain ⟨t2, ht2⟩ := ih (placeDotsPath dist mds spacing placed path)
    exact ⟨t1 ++ t2, by rw [ht2, ht1, List.append_assoc]⟩

/-- The glyph's very first marker is always the first path's first point:
with no previously accepted markers the dedup check passes vacuously, and
everything later only appends. -/
theorem placeDots_head (dist : Pt → Pt → ℚ) (spacing : ℚ) (p0 : Pt)
    (tl : List Pt) (rest : List (List Pt)) :
    (placeDots dist spacing ((p0 :: tl) :: rest)).head? = some p0 := by
  unfold placeDots
  rw [List.foldl_cons]
  have hstart : (addDotChecked (minDistSq spacing) [] p0).1 = [p0] := by
    unfold addDotChecked
    rw [if_neg (by simp)]
    rfl
  obtain ⟨t, ht⟩ := dotFold_fst dist (minDistSq spacing) spacing
    ((p0 :: tl).zip (p0 :: tl).tail)
    ((addDotChecked (minDistSq spacing) [] p0).1, 0)
  have h0 : placeDotsPath dist (minDistSq spacing) spacing [] (p0 :: tl)
      = [p0] ++ t := by
    show (((p0 :: tl).zip (p0 :: tl).tail).foldl
      (dotSeg dist (minDistSq spacing) spacing)
      ((addDotChecked (minDistSq spacing) [] p0).1, 0)).1 = [p0] ++ t
    rw [ht]
    show (addDotChecked (minDistSq spacing) [] p0).1 ++ t = _
    rw [hstart]
  obtain ⟨t2, ht2⟩ := placeDotsFold_fst dist (minDistSq spacing) spacing rest
    (placeDotsPath dist (minDistSq spacing) spacing [] (p0 :: tl))
  rw [ht2, h0]
  rfl

/-! ### Dash-mode marker placement (`process_font_file` of `app.py`)

Dash centres are recorded as `(offset, position)` pairs, where the offset
is the value of `next_dash_center` at emission time (the quantity the
position is interpolated from); the rotation angle (float `atan2`) is not
modelled.  The segment length oracle `dist` stands for `math.hypot`. -/

/-- One emitted dash: the scheduled offset, and the position interpolated
at `t = (offset - current_path_dist) / seg_len` within the segment. -/
def dashEmit (p1 p2 : Pt) (segLen cpd o : ℚ) : ℚ × Pt :=
  (o, (p1.1 + (p2.1 - p1.1) * ((o - cpd) / segLen),
       p1.2 + (p2.2 - p1.2) * ((o - cpd) / segLen)))

/-- The `while next_dash_center <= current_path_dist + seg_len` loop. -/
def dashWhile (stride : ℚ) (p1 p2 : Pt) (segLen cpd : ℚ) :
    Nat → ℚ → List (ℚ × Pt) → (List (ℚ × Pt) × ℚ)
  | 0, ndc, acc => (acc, ndc)
  | fuel + 1, ndc, acc =>
    if ndc ≤ cpd + segLen then
      dashWhile stride p1 p2 segLen cpd fuel (ndc + stride)
        (acc ++ [dashEmit p1 p2 segLen cpd ndc])
    else (acc, ndc)

/-- Repack the loop result into the `(cpd, ndc, dashes)` state. -/
def dashSegPack (newCpd : ℚ) (res : List (ℚ × Pt) × ℚ) :
    ℚ × ℚ × List (ℚ × Pt) := (newCpd, res.2, res.1)

/-- One segment of the dash walk with oracle length `d`: a zero-length
segment is skipped with no effect on the accumulators. -/
def dashSegAux (stride : ℚ) (st : ℚ × ℚ × List (ℚ × Pt)) (pq : Pt × Pt)
    (d : ℚ) : ℚ × ℚ × List (ℚ × Pt) :=
  if d = 0 then st
  else dashSegPack (st.1 + d)
    (dashWhile stride pq.1 pq.2 d st.1
      (⌊(st.1 + d - st.2.1) / stride⌋ + 1).toNat st.2.1 st.2.2)

def dashSeg (dist : Pt → Pt → ℚ) (stride : ℚ) (st : ℚ × ℚ × List (ℚ × Pt))
    (pq : Pt × Pt) : ℚ × ℚ × List (ℚ × Pt) :=
  dashSegAux stride st pq (dist pq.1 pq.2)

/-- The dash walk over one path: `current_path_dist = 0`,
`next_dash_center = pixel_dash_len / 2` (the first dash is centred at
half a dash length, not at the path start). -/
def dashPath (dist : Pt → Pt → ℚ) (pixLen pixGap : ℚ) (path : List Pt) :
    List (ℚ × Pt) :=
  ((path.zip path.tail).foldl (dashSeg dist (pixLen + pixGap))
    (0, pixLen / 2, [])).2.2

/-- All dashes of a glyph: accumulated across paths, the schedule
restarting for each path. -/
def placeDashes (dist : Pt → Pt → ℚ) (pixLen pixGap : ℚ)
    (paths : List (List Pt)) : List (ℚ × Pt) :=
  paths.foldl (fun acc path => acc ++ dashPath dist pixLen pixGap path) []

/-- Total arc length of a path under the oracle. -/
def pathLen (dist : Pt → Pt → ℚ) (path : List Pt) : ℚ :=
  ((path.zip path.tail).map (fun pq => dist pq.1 pq.2)).sum

/-- The point at arc length `o` along a path: linear interpolation in the
first non-degenerate segment whose span contains `o`. -/
def pointAtArc (dist : Pt → Pt → ℚ) : List Pt → ℚ → Option Pt
  | p1 :: p2 :: rest, o =>
    if dist p1 p2 ≠ 0 ∧ o ≤ dist p1 p2 then
      some (p1.1 + (p2.1 - p1.1) * (o / dist p1 p2),
            p1.2 + (p2.2 - p1.2) * (o / dist p1 p2))
    else pointAtArc dist (p2 :: rest) (o - dist p1 p2)
  | _, _ => none

/-- How many scheduled offsets `start + k * stride` fall within `total`
(boundary inclusive, matching the loop's `<=`). -/
def schedCount (start stride total : ℚ) : Nat :=
  if total < start then 0 else (⌊(total - start) / stride⌋ + 1).toNat

/-- The scheduled offsets that fall within `total`. -/
def schedList (start stride total : ℚ) : List ℚ :=
  (List.range (schedCount start stride total)).map
    (fun (k : Nat) => start + (k : ℚ) * stride)

theorem pathLen_cons_cons (dist : Pt → Pt → ℚ) (p1 p2 : Pt) (rest : List Pt) :
    pathLen dist (p1 :: p2 :: rest) = dist p1 p2 + pathLen dist (p2 :: rest) := rfl

theorem pathLen_nonneg (dist : Pt → Pt → ℚ) (hd : ∀ a b, 0 ≤ dist a b) :
    ∀ path : List Pt, 0 ≤ pathLen dist path := by
  intro path
  match path with
  | [] => exact le_refl 0
  | [p] => exact le_refl 0
  | p1 :: p2 :: rest =>
    rw [pathLen_cons_cons]
    have := pathLen_nonneg dist hd (p2 :: rest)
    have := hd p1 p2
    linarith

theorem schedCount_zero_of_lt (start stride total : ℚ) (h : total < start) :
    schedCount start stride total = 0 := by
  unfold schedCount
  rw [if_pos h]

theorem fuel_eq_schedCount (start stride total : ℚ) (hstride : 0 < stride) :
    (⌊(total - start) / stride⌋ + 1).toNat = schedCount start stride total := by
  unfold schedCount
  split
  · rename_i h
    have hx : (total - start) / stride < 0 :=
      div_neg_of_neg_of_pos (by linarith) hstride
    have hfl : ⌊(total - start) / stride⌋ < 0 := by
      rw [Int.floor_lt]
      exact_mod_cast hx
    omega
  · rfl

theorem schedCount_succ (start stride total : ℚ) (hstride : 0 < stride)
    (hle : start ≤ total) :
    schedCount start stride total = schedCount (start + stride) stride total + 1 := by
  by_cases h2 : total < start + stride
  · have hx0 : (0 : ℚ) ≤ (total - start) / stride :=
      div_nonneg (by linarith) hstride.le
    have hx1 : (total - start) / stride < 1 := (div_lt_one hstride).mpr (by linarith)
    have hfl : ⌊(total - start) / stride⌋ = 0 := by
      rw [Int.floor_eq_zero_iff]
      exact ⟨hx0, hx1⟩
    unfold schedCount
    rw [if_neg (not_lt.mpr hle), if_pos h2, hfl]
    rfl
  · push_neg at h2
    have hx1 : (1 : ℚ) ≤ (total - start) / stride :=
      (one_le_div hstride).mpr (by linarith)
    unfold schedCount
    rw [if_neg (not_lt.mpr hle), if_neg (not_lt.mpr h2)]
    have harith : (total - (start + stride)) / stride = (total - start) / stride - 1 := by
      field_simp
      ring
    rw [harith, Int.floor_sub_one]
    have hfl : 1 ≤ ⌊(total - start) / stride⌋ := by
      rw [Int.le_floor]
      exact_mod_cast hx1
    omega

theorem schedCount_exit (start stride total : ℚ) (hstride : 0 < stride) :
    total < start + (schedCount start stride total) * stride := by
  unfold schedCount
  split
  · rename_i h
    simpa using h
  · rename_i h
    push_neg at h
    have hx0 : (0 : ℚ) ≤ (total - start) / stride := div_nonneg (by linarith) hstride.le
    have hfl0 : 0 ≤ ⌊(total - start) / stride⌋ := Int.floor_nonneg.mpr hx0
    have h1 : ((⌊(total - start) / stride⌋ + 1).toNat : ℤ)
        = ⌊(total - start) / stride⌋ + 1 := Int.toNat_of_nonneg (by omega)
    have hcast : (((⌊(total - start) / stride⌋ + 1).toNat : ℚ))
        = (⌊(total - start) / stride⌋ : ℚ) + 1 := by
      exact_mod_cast congrArg (fun z : ℤ => (z : ℚ)) h1
    rw [hcast]
    have hlt : (total - start) / stride < (⌊(total - start) / stride⌋ : ℚ) + 1 :=
      Int.lt_floor_add_one _
    have hmul : total - start < ((⌊(total - start) / stride⌋ : ℚ) + 1) * stride := by
      have := (div_lt_iff₀ hstride).mp hlt
      linarith
    linarith

theorem schedCount_mem_le (start stride total : ℚ) (hstride : 0 < stride)
    (k : Nat) (hk : k < schedCount start stride total) :
    start + k * stride ≤ total := by
  unfold schedCount at hk
  split at hk
  · omega
  · rename_i h
    push_neg at h
    have hfl0 : 0 ≤ ⌊(total - start) / stride⌋ :=
      Int.floor_nonneg.mpr (div_nonneg (by linarith) hstride.le)
    have hk2 : (k : ℤ) ≤ ⌊(total - start) / stride⌋ := by omega
    have hk3 : (k : ℚ) ≤ (total - start) / stride := by
      calc (k : ℚ) ≤ (⌊(total - start) / stride⌋ : ℚ) := by exact_mod_cast hk2
        _ ≤ (total - start) / stride := Int.floor_le _
    have := (le_div_iff₀ hstride).mp hk3
    linarith

theorem schedCount_split (stride : ℚ) (hstride : 0 < stride) (b1 b2 : ℚ)
    (hb : b1 ≤ b2) :
    ∀ (n : Nat) (start : ℚ), schedCount start stride b1 = n →
      schedCount start stride b2 = n + schedCount (start + n * stride) stride b2 := by
  intro n
  induction n with
  | zero =>
    intro start _
    norm_num
  | succ m ih =>
    intro start hcount
    have hle1 : start ≤ b1 := by
      by_contra hgt
      push_neg at hgt
      rw [schedCount_zero_of_lt start stride b1 hgt] at hcount
      omega
    have hstep1 : schedCount start stride b1 = schedCount (start + stride) stride b1 + 1 :=
      schedCount_succ start stride b1 hstride hle1
    have hm : schedCount (start + stride) stride b1 = m := by omega
    have hstep2 : schedCount start stride b2 = schedCount (start + stride) stride b2 + 1 :=
      schedCount_succ start stride b2 hstride (hle1.trans hb)
    rw [hstep2, ih (start + stride) hm]
    have harith : start + stride + m * stride = start + (m + 1 : Nat) * stride := by
      push_cast
      ring
    rw [harith]
    omega

/-- Characterisation of the dash emission loop: with sufficient fuel it
emits exactly the scheduled offsets that fall within the segment's span,
each with the interpolated position, and leaves `next_dash_center` just
past the span. -/
theorem dashWhile_spec (stride : ℚ) (hstride : 0 < stride) (p1 p2 : Pt)
    (segLen cpd : ℚ) :
    ∀ (fuel : Nat) (ndc : ℚ) (acc : List (ℚ × Pt)),
      schedCount ndc stride (cpd + segLen) ≤ fuel →
      dashWhile stride p1 p2 segLen cpd fuel ndc acc
        = (acc ++ (List.range (schedCount ndc stride (cpd + segLen))).map
            (fun (k : Nat) => dashEmit p1 p2 segLen cpd (ndc + (k : ℚ) * stride)),
           ndc + (schedCount ndc stride (cpd + segLen)) * stride) := by
  intro fuel
  induction fuel with
  | zero =>
    intro ndc acc hle
    have h0 : schedCount ndc stride (cpd + segLen) = 0 := by omega
    rw [h0]
    simp [dashWhile]
  | succ f2 ih =>
    intro ndc acc hle
    by_cases hcond : ndc ≤ cpd + segLen
    · have hsucc := schedCount_succ ndc stride (cpd + segLen) hstride hcond
      show (if ndc ≤ cpd + segLen then
          dashWhile stride p1 p2 segLen cpd f2 (ndc + stride)
            (acc ++ [dashEmit p1 p2 segLen cpd ndc])
        else (acc, ndc)) = _
      rw [if_pos hcond]
      have hle2 : schedCount (ndc + stride) stride (cpd + segLen) ≤ f2 := by omega
      rw [ih (ndc + stride) _ hle2]
      rw [hsucc]
      rw [Prod.mk.injEq]
      constructor
      · rw [List.append_assoc]
        congr 1
        rw [List.range_succ_eq_map, List.map_cons, List.map_map,
          List.singleton_append]
        congr 1
        · show dashEmit p1 p2 segLen cpd ndc
            = dashEmit p1 p2 segLen cpd (ndc + ((0 : Nat) : ℚ) * stride)
          norm_num
        · apply List.map_congr_left
          intro k _
          show dashEmit p1 p2 segLen cpd (ndc + stride + (k : ℚ) * stride)
            = dashEmit p1 p2 segLen cpd (ndc + ((Nat.succ k : Nat) : ℚ) * stride)
          congr 1
          push_cast
          ring
      · push_cast
        ring
    · have h0 : schedCount ndc stride (cpd + segLen) = 0 :=
        schedCount_zero_of_lt _ _ _ (by linarith [not_le.mp hcond])
      rw [h0]
      show (if ndc ≤ cpd + segLen then
          dashWhile stride p1 p2 segLen cpd f2 (ndc + stride)
            (acc ++ [dashEmit p1 p2 segLen cpd ndc])
        else (acc, ndc)) = _
      rw [if_neg hcond]
      simp

/-- The dash walk over the remaining segments: starting from arc position
`cpd` with next scheduled centre `ndc > cpd`, it emits exactly the
scheduled offsets within the path's arc length, each positioned at its
arc-length point. -/
theorem dashFold_spec (dist : Pt → Pt → ℚ) (stride : ℚ) (hstride : 0 < stride)
    (hd : ∀ a b, 0 ≤ dist a b) :
    ∀ (path : List Pt) (cpd ndc : ℚ) (acc : List (ℚ × Pt)),
      cpd < ndc →
      ∃ L : List (ℚ × Pt),
        (path.zip path.tail).foldl (dashSeg dist stride) (cpd, ndc, acc)
          = (cpd + pathLen dist path,
             ndc + (schedCount ndc stride (cpd + pathLen dist path)) * stride,
             acc ++ L)
        ∧ L.map Prod.fst
            = (List.range (schedCount ndc stride (cpd + pathLen dist path))).map
                (fun (k : Nat) => ndc + (k : ℚ) * stride)
        ∧ ∀ e ∈ L, pointAtArc dist path (e.1 - cpd) = some e.2 := by
  intro path
  induction path with
  | nil =>
    intro cpd ndc acc hlt
    refine ⟨[], ?_, ?_, ?_⟩
    · show (cpd, ndc, acc) = _
      have hc : schedCount ndc stride (cpd + pathLen dist []) = 0 :=
        schedCount_zero_of_lt _ _ _ (by
          show cpd + pathLen dist [] < ndc
          have : pathLen dist ([] : List Pt) = 0 := rfl
          rw [this]
          linarith)
      rw [hc]
      have : pathLen dist ([] : List Pt) = 0 := rfl
      rw [this]
      norm_num
    · have hc : schedCount ndc stride (cpd + pathLen dist []) = 0 :=
        schedCount_zero_of_lt _ _ _ (by
          show cpd + pathLen dist [] < ndc
          have : pathLen dist ([] : List Pt) = 0 := rfl
          rw [this]
          linarith)
      rw [hc]
      rfl
    · intro e he
      simp at he
  | cons p1 tl ih =>
    cases tl with
    | nil =>
      intro cpd ndc acc hlt
      refine ⟨[], ?_, ?_, ?_⟩
      · show (cpd, ndc, acc) = _
        have hc : schedCount ndc stride (cpd + pathLen dist [p1]) = 0 :=
          schedCount_zero_of_lt _ _ _ (by
            show cpd + pathLen dist [p1] < ndc
            have : pathLen dist [p1] = 0 := rfl
            rw [this]
            linarith)
        rw [hc]
        have : pathLen dist [p1] = 0 := rfl
        rw [this]
        norm_num
      · have hc : schedCount ndc stride (cpd + pathLen dist [p1]) = 0 :=
          schedCount_zero_of_lt _ _ _ (by
            show cpd + pathLen dist [p1] < ndc
            have : pathLen dist [p1] = 0 := rfl
            rw [this]
            linarith)
        rw [hc]
        rfl
      · intro e he
        simp at he
    | cons p2 rest =>
      intro cpd ndc acc hlt
      have hseg : ((p1 :: p2 :: rest).zip (p1 :: p2 :: rest).tail)
          = (p1, p2) :: ((p2 :: rest).zip (p2 :: rest).tail) := rfl
      rw [hseg, List.foldl_cons]
      by_cases hd0 : dist p1 p2 = 0
      · have hskip : dashSeg dist stride (cpd, ndc, acc) (p1, p2) = (cpd, ndc, acc) := by
          unfold dashSeg dashSegAux
          dsimp only
          rw [if_pos hd0]
        rw [hskip]
        obtain ⟨L, h1, h2, h3⟩ := ih cpd ndc acc hlt
        have hplen : pathLen dist (p1 :: p2 :: rest) = pathLen dist (p2 :: rest) := by
          rw [pathLen_cons_cons, hd0, zero_add]
        refine ⟨L, ?_, ?_, ?_⟩
        · rw [hplen]; exact h1
        · rw [hplen]; exact h2
        · intro e he
          have hrec := h3 e he
          show pointAtArc dist (p1 :: p2 :: rest) (e.1 - cpd) = some e.2
          have hstep : pointAtArc dist (p1 :: p2 :: rest) (e.1 - cpd)
              = pointAtArc dist (p2 :: rest) (e.1 - cpd - dist p1 p2) := by
            show (if dist p1 p2 ≠ 0 ∧ e.1 - cpd ≤ dist p1 p2 then _ else
              pointAtArc dist (p2 :: rest) (e.1 - cpd - dist p1 p2)) = _
            rw [if_neg (fun hcc => hcc.1 hd0)]
          rw [hstep, hd0, sub_zero]
          exact hrec
      · have hdpos : 0 < dist p1 p2 := lt_of_le_of_ne (hd p1 p2) (Ne.symm hd0)
        have hrun : dashSeg dist stride (cpd, ndc, acc) (p1, p2)
            = (cpd + dist p1 p2,
               ndc + (schedCount ndc stride (cpd + dist p1 p2)) * stride,
               acc ++ (List.range (schedCount ndc stride (cpd + dist p1 p2))).map
                 (fun (k : Nat) => dashEmit p1 p2 (dist p1 p2) cpd (ndc + (k : ℚ) * stride))) := by
          unfold dashSeg dashSegAux
          dsimp only
          rw [if_neg hd0]
          rw [fuel_eq_schedCount ndc stride (cpd + dist p1 p2) hstride]
          rw [dashWhile_spec stride hstride p1 p2 (dist p1 p2) cpd _ ndc acc (le_refl _)]
          rfl
        rw [hrun]
        obtain ⟨L2, h1, h2, h3⟩ := ih (cpd + dist p1 p2)
          (ndc + (schedCount ndc stride (cpd + dist p1 p2)) * stride)
          (acc ++ (List.range (schedCount ndc stride (cpd + dist p1 p2))).map
            (fun (k : Nat) => dashEmit p1 p2 (dist p1 p2) cpd (ndc + (k : ℚ) * stride)))
          (schedCount_exit ndc stride (cpd + dist p1 p2) hstride)
        have hsplit := schedCount_split stride hstride (cpd + dist p1 p2)
          (cpd + pathLen dist (p1 :: p2 :: rest))
          (by
            rw [pathLen_cons_cons]
            have := pathLen_nonneg dist hd (p2 :: rest)
            linarith)
          (schedCount ndc stride (cpd + dist p1 p2)) ndc rfl
        have hT : cpd + dist p1 p2 + pathLen dist (p2 :: rest)
            = cpd + pathLen dist (p1 :: p2 :: rest) := by
          rw [pathLen_cons_cons]
          ring
        refine ⟨(List.range (schedCount ndc stride (cpd + dist p1 p2))).map
            (fun (k : Nat) => dashEmit p1 p2 (dist p1 p2) cpd (ndc + (k : ℚ) * stride))
            ++ L2, ?_, ?_, ?_⟩
        · rw [h1, hT]
          rw [Prod.mk.injEq, Prod.mk.injEq]
          refine ⟨rfl, ?_, List.append_assoc _ _ _⟩
          rw [hsplit]
          push_cast
          ring
        · rw [List.map_append, h2, hT, hsplit]
          rw [List.range_add, List.map_append, List.map_map, List.map_map]
          congr 1
          apply List.map_congr_left
          intro k _
          show ndc + (schedCount ndc stride (cpd + dist p1 p2) : ℚ) * stride + (k : ℚ) * stride
            = ndc + ((schedCount ndc stride (cpd + dist p1 p2) + k : Nat) : ℚ) * stride
          push_cast
          ring
        · intro e he
          rcases List.mem_append.mp he with he1 | he2
          · obtain ⟨k, hk, rfl⟩ := List.mem_map.mp he1
            rw [List.mem_range] at hk
            have hofs : ndc + (k : ℚ) * stride ≤ cpd + dist p1 p2 :=
              schedCount_mem_le ndc stride (cpd + dist p1 p2) hstride k hk
            show pointAtArc dist (p1 :: p2 :: rest)
              ((dashEmit p1 p2 (dist p1 p2) cpd (ndc + (k : ℚ) * stride)).1 - cpd)
              = some (dashEmit p1 p2 (dist p1 p2) cpd (ndc + (k : ℚ) * stride)).2
            show (if dist p1 p2 ≠ 0 ∧
                (dashEmit p1 p2 (dist p1 p2) cpd (ndc + (k : ℚ) * stride)).1 - cpd ≤ dist p1 p2
              then some (p1.1 + (p2.1 - p1.1) *
                  (((dashEmit p1 p2 (dist p1 p2) cpd (ndc + (k : ℚ) * stride)).1 - cpd) / dist p1 p2),
                p1.2 + (p2.2 - p1.2) *
                  (((dashEmit p1 p2 (dist p1 p2) cpd (ndc + (k : ℚ) * stride)).1 - cpd) / dist p1 p2))
              else pointAtArc dist (p2 :: rest)
                ((dashEmit p1 p2 (dist p1 p2) cpd (ndc + (k : ℚ) * stride)).1 - cpd - dist p1 p2)) = _
            rw [if_pos ⟨hd0, by
              show (ndc + (k : ℚ) * stride) - cpd ≤ dist p1 p2
              linarith⟩]
            rfl
          · have hrec := h3 e he2
            have hgt : cpd + dist p1 p2 < e.1 := by
              have hmem : e.1 ∈ L2.map Prod.fst := List.mem_map_of_mem Prod.fst he2
              rw [h2] at hmem
              obtain ⟨k, _, hk2⟩ := List.mem_map.mp hmem
              have hc1 : (0 : ℚ) ≤ (k : ℚ) * stride := by positivity
              have := schedCount_exit ndc stride (cpd + dist p1 p2) hstride
              rw [← hk2] at *
              linarith
            show pointAtArc dist (p1 :: p2 :: rest) (e.1 - cpd) = some e.2
            have hstep : pointAtArc dist (p1 :: p2 :: rest) (e.1 - cpd)
                = pointAtArc dist (p2 :: rest) (e.1 - cpd - dist p1 p2) := by
              show (if dist p1 p2 ≠ 0 ∧ e.1 - cpd ≤ dist p1 p2 then _ else
                pointAtArc dist (p2 :: rest) (e.1 - cpd - dist p1 p2)) = _
              rw [if_neg (fun hcc => absurd hcc.2 (by push_neg; linarith))]
            rw [hstep]
            have harg : e.1 - cpd - dist p1 p2 = e.1 - (cpd + dist p1 p2) := by ring
            rw [harg]
            exact hrec

/-- The dash schedule over one path: offsets are exactly
`L/2, L/2 + (L+G), L/2 + 2(L+G), ...` up to the path's arc length, and
each dash centre sits at its offset's arc-length point. -/
theorem dash_schedule (dist : Pt → Pt → ℚ) (pixLen pixGap : ℚ) (path : List Pt)
    (hd : ∀ a b, 0 ≤ dist a b) (hL : 0 < pixLen) (hG : 0 ≤ pixGap) :
    (dashPath dist pixLen pixGap path).map Prod.fst
      = schedList (pixLen / 2) (pixLen + pixGap) (pathLen dist path)
    ∧ ∀ e ∈ dashPath dist pixLen pixGap path,
        pointAtArc dist path e.1 = some e.2 := by
  have hstride : 0 < pixLen + pixGap := by linarith
  obtain ⟨L, h1, h2, h3⟩ := dashFold_spec dist (pixLen + pixGap) hstride hd path
    0 (pixLen / 2) [] (by linarith)
  have hdp : dashPath dist pixLen pixGap path = L := by
    unfold dashPath
    rw [h1]
    simp
  constructor
  · rw [hdp, h2]
    unfold schedList
    simp only [zero_add]
  · intro e he
    rw [hdp] at he
    have hp := h3 e he
    rwa [sub_zero] at hp

/-! ### Remaining helpers for the claim theorems -/

theorem skeletonize_rows_width (g : Grid) (hrect : IsRect g) :
    ∀ row ∈ skeletonize g, row.length = colsOf g := by
  intro row hrow
  obtain ⟨k, hk, rfl⟩ := List.getElem_of_mem hrow
  have hk2 : k < g.length := by
    have := skeletonize_length g
    omega
  have hgd : (skeletonize g)[k] = (skeletonize g).getD k [] := by
    rw [List.getD_eq_getElem?_getD, List.getElem?_eq_getElem hk]
    rfl
  rw [hgd, skeletonize_rowlen g hrect k hk2]

theorem traceNodes_of_allZero (g : Grid) (h : ∀ r c : Int, getPixel g r c = 0) :
    traceNodes g = [] := by
  rw [List.eq_nil_iff_forall_not_mem]
  intro n hn
  unfold traceNodes at hn
  rw [List.mem_flatMap] at hn
  obtain ⟨r, _, hn2⟩ := hn
  rw [List.mem_filterMap] at hn2
  obtain ⟨c, _, hif⟩ := hn2
  rw [h r c] at hif
  rw [if_neg (by norm_num)] at hif
  exact Option.noConfusion hif

theorem traceAll_of_no_nodes {α : Type} (f : List Node → α) (skel : Grid)
    (h : traceNodes skel = []) : traceAll f skel = [] := by
  unfold traceAll
  rw [if_pos h]

theorem finalizePath_length (p : List Node) :
    (finalizePath p).length = p.length := by
  unfold finalizePath
  split
  · rw [length_smooth_path, List.length_map]
  · rw [List.length_map]

/-! ## The claims -/

/-- C1 (counterexample): in the skeleton holding a pure diamond loop
(every node degree 2) together with a separate two-pixel bar (degree-1
endpoints), the loop's adjacency pair `{(0,1), (1,0)}` is a skeleton edge
but is traced by no path: start nodes are drawn only from the global
endpoint/junction sets, so a pure-loop component coexisting with other
components is silently dropped. -/
theorem trace_edge_coverage_counterexample :
    normEdge ((0 : Int), (1 : Int)) ((1 : Int), (0 : Int))
        ∈ adjPairs [[0,1,0],[1,0,1],[0,1,0],[0,0,0],[1,1,0]]
    ∧ normEdge ((0 : Int), (1 : Int)) ((1 : Int), (0 : Int))
        ∉ (traceRawPaths [[0,1,0],[1,0,1],[0,1,0],[0,0,0],[1,1,0]]).flatMap pathEdges := by
  constructor
  · decide
  · decide

/-- C1 (amended): no adjacency pair is ever traced twice — the traversed
edges across all output paths of one trace are pairwise distinct.  (The
completeness half of the claim fails: see the counterexample, where a
pure-loop component coexisting with another component is never traced.) -/
theorem trace_edge_no_duplication (skel : Grid) :
    ((traceRawPaths skel).flatMap pathEdges).Nodup :=
  traceAll_edges_nodup skel

/-- C2 (counterexample): a skeleton consisting of one isolated foreground
pixel produces an empty path list — not a one-point path.  The pixel has
degree 0, is classified as a junction, and contributes no walk because it
has no incident edges. -/
theorem isolated_pixel_counterexample :
    trace_skeleton [[1]] = some [] := by
  decide

/-- C2 (amended): the tracer never emits a degenerate one-point path:
every path in the output of `trace_skeleton` has at least two points
(each walk starts from a start node and one of its neighbours), so an
isolated pixel yields no path at all. -/
theorem trace_no_singleton_paths (skel : Grid) (ps : List (List Pt))
    (p : List Pt) (h1 : trace_skeleton skel = some ps) (h2 : p ∈ ps) :
    2 ≤ p.length := by
  cases skel with
  | nil => exact Option.noConfusion h1
  | cons row t =>
    have hps : ps = traceAll finalizePath (row :: t) :=
      (Option.some_inj.mp h1).symm
    subst hps
    exact traceAll_len (row :: t) finalizePath List.length finalizePath_length p h2

theorem trace_no_singleton_paths_witness :
    trace_skeleton [[1, 1]] = some [[((0 : ℚ), (0 : ℚ)), ((1 : ℚ), (0 : ℚ))]]
    ∧ 2 ≤ ([((0 : ℚ), (0 : ℚ)), ((1 : ℚ), (0 : ℚ))] : List Pt).length :=
  ⟨by decide,
   trace_no_singleton_paths [[1, 1]] [[((0 : ℚ), (0 : ℚ)), ((1 : ℚ), (0 : ℚ))]]
     [((0 : ℚ), (0 : ℚ)), ((1 : ℚ), (0 : ℚ))] (by decide) (by decide)⟩

/-- C3 (counterexample): a zero-row input grid does not flow through: the
skeleton is empty as claimed, but `trace_skeleton` evaluates
`len(skeleton[0])` on an empty list and raises (modelled as `none`). -/
theorem empty_grid_counterexample :
    skeletonize ([] : Grid) = [] ∧ trace_skeleton ([] : Grid) = none :=
  ⟨rfl, rfl⟩

/-- C3 (amended): a degenerate all-background grid with at least one row
flows through the pipeline without error: the skeleton is the unchanged
all-background grid, the path list is empty, and both marker placers
produce an empty marker list from it. -/
theorem degenerate_grid_flows (h w : Nat) (dist : Pt → Pt → ℚ)
    (spacing pixLen pixGap : ℚ) (hh : 0 < h) :
    skeletonize (zeroGrid h w) = zeroGrid h w
    ∧ trace_skeleton (zeroGrid h w) = some []
    ∧ placeDots dist spacing [] = []
    ∧ placeDashes dist pixLen pixGap [] = [] := by
  refine ⟨skeletonize_zeroGrid h w hh, ?_, rfl, rfl⟩
  have hnodes : traceNodes (zeroGrid h w) = [] :=
    traceNodes_of_allZero _ (getPixel_zeroGrid h w)
  cases h with
  | zero => omega
  | succ n =>
    show trace_skeleton (List.replicate (n + 1) (List.replicate w 0)) = some []
    rw [List.replicate_succ]
    show some (traceAll finalizePath
      (List.replicate w 0 :: List.replicate n (List.replicate w 0))) = some []
    have : List.replicate w 0 :: List.replicate n (List.replicate w 0)
        = zeroGrid (n + 1) w := by
      rw [zeroGrid, List.replicate_succ]
    rw [this, traceAll_of_no_nodes finalizePath _ hnodes]

theorem degenerate_grid_flows_witness :
    0 < 2
    ∧ (skeletonize (zeroGrid 2 3) = zeroGrid 2 3
      ∧ trace_skeleton (zeroGrid 2 3) = some []
      ∧ placeDots (fun _ _ => 0) 1 [] = []
      ∧ placeDashes (fun _ _ => 0) 1 1 [] = []) :=
  ⟨by decide, degenerate_grid_flows 2 3 (fun _ _ => 0) 1 1 1 (by decide)⟩

/-- C4: `skeletonize` preserves the grid's dimensions, only deletes
foreground, and is idempotent: re-running it on its own output changes
nothing. -/
theorem skeletonize_fixed_point (g : Grid) (hrect : IsRect g) :
    (skeletonize g).length = g.length
    ∧ (∀ row ∈ skeletonize g, row.length = colsOf g)
    ∧ (∀ r c : Int, getPixel (skeletonize g) r c ≤ getPixel g r c)
    ∧ skeletonize (skeletonize g) = skeletonize g :=
  ⟨skeletonize_length g, skeletonize_rows_width g hrect,
   fun r c => getPixel_skeletonize_le g hrect r c, skeletonize_idem g hrect⟩

theorem skeletonize_fixed_point_witness :
    IsRect [[1, 1], [1, 1]]
    ∧ ((skeletonize [[1, 1], [1, 1]]).length = ([[1, 1], [1, 1]] : Grid).length
      ∧ (∀ row ∈ skeletonize [[1, 1], [1, 1]], row.length = colsOf [[1, 1], [1, 1]])
      ∧ (∀ r c : Int, getPixel (skeletonize [[1, 1], [1, 1]]) r c
          ≤ getPixel [[1, 1], [1, 1]] r c)
      ∧ skeletonize (skeletonize [[1, 1], [1, 1]]) = skeletonize [[1, 1], [1, 1]]) :=
  ⟨by decide, skeletonize_fixed_point [[1, 1], [1, 1]] (by decide)⟩

/-- C5: within each sub-iteration the deleted pixels are exactly the
in-range foreground pixels satisfying that sub-iteration's `B`/`A`/ring
conditions evaluated on the grid as it was before the sub-iteration
started; all marked deletions land together after the scan (sub-iteration
1 tests `P2·P4·P6 = 0` and `P4·P6·P8 = 0`, sub-iteration 2 its mirror). -/
theorem zs_subiteration_contract (g : Grid) (r c : Int) :
    getPixel (zsStep1 g) r c
      = (if 1 ≤ r ∧ r ≤ (rowsOf g : Int) - 2 ∧ 1 ≤ c ∧ c ≤ (colsOf g : Int) - 2
            ∧ getPixel g r c ≠ 0 ∧ zsCond1 g r c = true
         then 0 else getPixel g r c)
    ∧ getPixel (zsStep2 g) r c
      = (if 1 ≤ r ∧ r ≤ (rowsOf g : Int) - 2 ∧ 1 ≤ c ∧ c ≤ (colsOf g : Int) - 2
            ∧ getPixel g r c ≠ 0 ∧ zsCond2 g r c = true
         then 0 else getPixel g r c) := by
  constructor
  · unfold zsStep1
    rw [getPixel_applyDel]
    exact if_congr (mem_toDelete1 g r c) rfl rfl
  · unfold zsStep2
    rw [getPixel_applyDel]
    exact if_congr (mem_toDelete2 g r c) rfl rfl

/-- C6: one full pass never turns background into foreground, the
foreground count is non-increasing pass over pass, the thinning result is
a fixpoint of the full pass (a pass that deletes nothing ends the loop),
and the result is reached after finitely many passes. -/
theorem zs_monotone_terminates (g : Grid) :
    (∀ r c : Int, getPixel (zsPass g) r c ≤ getPixel g r c)
    ∧ fgCount (zsPass g) ≤ fgCount g
    ∧ zsPass (zhang_suen_thinning g) = zhang_suen_thinning g
    ∧ ∃ n : Nat, zhang_suen_thinning g = zsPass^[n] g := by
  refine ⟨fun r c => getPixel_zsPass_le g r c, fgCount_zsPass_le g, ?_, ?_⟩
  · exact zsPass_of_done _ (zhang_suen_done g)
  · exact zhangSuenFuel_iterate (fgCount g + 1) g

/-- C7 (counterexample): at the centre of a fully-foreground 3×3 block,
the tracer's neighbour enumeration (row-major double loop) differs from
the thinner's clockwise-from-north ring order `P2..P9`. -/
theorem neighbor_order_counterexample :
    traceGetNeighbors [[1,1,1],[1,1,1],[1,1,1]] 1 1
      ≠ ringNeighbors [[1,1,1],[1,1,1],[1,1,1]] 1 1 := by
  decide

/-- C7 (amended): the tracer's neighbour enumeration is deterministic and
follows a fixed order, but it is the row-major order (top row left to
right, then left/right, then bottom row left to right) — not the
thinner's clockwise-from-north ring order: the list of neighbours is
exactly the foreground 8-neighbours, as a subsequence of the fixed
row-major position list. -/
theorem trace_neighbor_order (skel : Grid) (r c : Int) :
    (∀ p : Node, p ∈ traceGetNeighbors skel r c ↔
      (getPixel skel p.1 p.2 = 1 ∧ p ≠ (r, c)
        ∧ (p.1 - r).natAbs ≤ 1 ∧ (p.2 - c).natAbs ≤ 1))
    ∧ (traceGetNeighbors skel r c).Sublist
        (rowMajorOffsets.map (fun d => (r + d.1, c + d.2))) :=
  ⟨fun p => mem_traceGetNeighbors skel r c p, traceGetNeighbors_sublist skel r c⟩

/-- C8 (counterexample): with pixel spacing 10 (so `min_dist_sq = 36`)
and two one-point paths starting at `(0,0)` and `(1,0)`, the second
path's first point is rejected by the glyph-global dedup: no marker is
emitted at it, refuting "the marker at the first point of each path is
placed unconditionally". -/
theorem dot_first_point_counterexample :
    placeDots (fun _ _ => 0) 10 [[((0 : ℚ), (0 : ℚ))], [((1 : ℚ), (0 : ℚ))]]
      = [((0 : ℚ), (0 : ℚ))]
    ∧ ((1 : ℚ), (0 : ℚ))
      ∉ placeDots (fun _ _ => 0) 10 [[((0 : ℚ), (0 : ℚ))], [((1 : ℚ), (0 : ℚ))]] := by
  have hres : placeDots (fun _ _ => 0) 10
      [[((0 : ℚ), (0 : ℚ))], [((1 : ℚ), (0 : ℚ))]] = [((0 : ℚ), (0 : ℚ))] := by
    norm_num [placeDots, placeDotsPath, addDotChecked, sqDist, minDistSq]
  refine ⟨hres, ?_⟩
  rw [hres]
  norm_num

/-- C8 (amended): the placer always submits each path's first point as a
candidate, but the candidate is subject to the glyph-global dedup:
`add_dot_checked` accepts a candidate iff its squared distance to every
previously accepted marker is at least `min_dist_sq`; in particular the
glyph's very first marker is always accepted at the first path's first
point. -/
theorem dot_first_point_policy :
    (∀ (mds : ℚ) (placed : List Pt) (p : Pt),
      (addDotChecked mds placed p).2 = true ↔ ∀ e ∈ placed, mds ≤ sqDist p e)
    ∧ ∀ (dist : Pt → Pt → ℚ) (spacing : ℚ) (p0 : Pt) (tl : List Pt)
        (rest : List (List Pt)),
        (placeDots dist spacing ((p0 :: tl) :: rest)).head? = some p0 :=
  ⟨addDotChecked_accept_iff, placeDots_head⟩

/-- C9: in dash mode, per path, the emitted dash centres are precisely
the scheduled arc-length offsets `L/2 + k·(L+G)` (in pixel space) that
fall within the path's total arc length — the first at `L/2`, each next
exactly one stride further — and each centre is the path's point at its
offset's arc length. -/
theorem dash_centers_schedule (dist : Pt → Pt → ℚ) (pixLen pixGap : ℚ)
    (path : List Pt) (hd : ∀ a b, 0 ≤ dist a b) (hL : 0 < pixLen)
    (hG : 0 ≤ pixGap) :
    (dashPath dist pixLen pixGap path).map Prod.fst
      = schedList (pixLen / 2) (pixLen + pixGap) (pathLen dist path)
    ∧ ∀ e ∈ dashPath dist pixLen pixGap path,
        pointAtArc dist path e.1 = some e.2 :=
  dash_schedule dist pixLen pixGap path hd hL hG

theorem dash_centers_schedule_witness :
    ((∀ a b : Pt, 0 ≤ (fun (_ _ : Pt) => (5 : ℚ)) a b) ∧ (0 : ℚ) < 2 ∧ (0 : ℚ) ≤ 1)
    ∧ ((dashPath (fun (_ _ : Pt) => (5 : ℚ)) 2 1 [((0 : ℚ), (0 : ℚ)), ((5 : ℚ), (0 : ℚ))]).map Prod.fst
        = schedList (2 / 2) (2 + 1)
            (pathLen (fun (_ _ : Pt) => (5 : ℚ)) [((0 : ℚ), (0 : ℚ)), ((5 : ℚ), (0 : ℚ))])
      ∧ ∀ e ∈ dashPath (fun (_ _ : Pt) => (5 : ℚ)) 2 1
            [((0 : ℚ), (0 : ℚ)), ((5 : ℚ), (0 : ℚ))],
          pointAtArc (fun (_ _ : Pt) => (5 : ℚ))
            [((0 : ℚ), (0 : ℚ)), ((5 : ℚ), (0 : ℚ))] e.1 = some e.2) :=
  ⟨⟨fun a b => by norm_num, by norm_num, by norm_num⟩,
   dash_centers_schedule (fun (_ _ : Pt) => (5 : ℚ)) 2 1
     [((0 : ℚ), (0 : ℚ)), ((5 : ℚ), (0 : ℚ))]
     (fun a b => by norm_num) (by norm_num) (by norm_num)⟩

/-- C10: `trace_skeleton` returns, for every raw traced pixel path, the
`(col, row)` coordinate path smoothed by exactly three iterations of the
1:2:1 interior averaging when the path has more than two points, and the
unsmoothed exact pixel coordinates otherwise. -/
theorem trace_default_smoothing (skel : Grid) :
    trace_skeleton skel
      = Option.map (List.map (fun p =>
          if 2 < p.length then smoothOnce (smoothOnce (smoothOnce (p.map nodeToXY)))
          else p.map nodeToXY)) (trace_raw skel) := by
  cases skel with
  | nil => rfl
  | cons row t =>
    show some (traceAll finalizePath (row :: t))
      = some ((traceRawPaths (row :: t)).map _)
    congr 1
    unfold traceRawPaths
    rw [traceAll_map (row :: t) finalizePath]
    apply List.map_congr_left
    intro p _
    unfold finalizePath
    by_cases hlen : 2 < p.length
    · rw [if_pos hlen, if_pos hlen]
      have h3 : 3 ≤ (p.map nodeToXY).length := by
        rw [List.length_map]
        omega
      exact smooth_path_three _ h3
    · rw [if_neg hlen, if_neg hlen]

end FontSkeleton
